import Mathlib

set_option linter.unusedVariables false

namespace NdbEventLoop

/-! Shallow embedding of src/src/google/appengine/ext/ndb/eventloop.py.

The event loop owns four structures (an immediate FIFO `current`, an idle
FIFO `idlers` with the `inactive` backoff counter, a deadline-sorted timer
list `queue`, and a pending-rpc table `rpcs`) plus a clock.  Callbacks are
modelled as first-order values whose invocation appends their id to a
`trace` field; the external rpc subsystem is modelled by an observable
state table `states`, per-multi-rpc done flags `doneFlags` (the mutable
`__done` attribute set by `queue_rpc`), and a `wait_any` oracle supplied
to the stepping functions.  Time is modelled by integers (the source uses
Python floats); `clock.sleep d` advances `now` by `d`.  Python exceptions
are modelled by the `Err`-carrying `Outcome` results: an exception
propagates, while the mutations already performed on the loop remain. -/

/-- Time values, in seconds since epoch.  The source uses Python floats; the
embedding uses integers, which support all the operations the loop performs
on times (addition, subtraction, order comparisons). -/
abbrev Time := Int

/-- Observable state of an rpc: apiproxy_rpc.RPC.IDLE / RUNNING / FINISHING. -/
inductive RpcState
  | idle
  | running
  | finishing
  deriving DecidableEq, Repr

/-- A callback value.  A `plain` callback records its id in the trace; a
`raising` callback records its id and then raises; `nullFn` models Python
`None` used as a callable (raises when called); `guard m inner` models the
`help_multi_rpc_along` closure created by `queue_rpc` for a MultiRpc `m`
with more than one sub-rpc: it calls `inner` only the first time it sees
`m` in the FINISHING state (the `__done` one-shot flag). -/
inductive CB
  | plain (i : Nat)
  | raising (i : Nat)
  | nullFn
  | guard (m : Nat) (inner : CB)
  deriving DecidableEq, Repr

/-- Result of one invocation of an idle callback: Python None / False / True,
or raising an exception. -/
inductive IdleBeh
  | remove
  | noWork
  | didWork
  | raise
  deriving DecidableEq, Repr

/-- An idle item: its id (recorded in the trace at each invocation) and the
scripted results of its successive invocations; an exhausted script behaves
like Python None (remove). -/
structure IdleItem where
  id : Nat
  script : List IdleBeh
  deriving DecidableEq, Repr

/-- The EventLoop state: `now` is the clock, the next four fields are the
loop's own structures from `EventLoop.__init__`, `states` is the external
rpc-state observer, `doneFlags` the set of multi-rpcs whose `__done`
attribute is True, and `trace` the ids of the callbacks invoked so far. -/
structure Loop where
  now : Time
  current : List CB
  idlers : List IdleItem
  inactive : Nat
  queue : List (Time × CB)
  rpcs : List (Nat × Option CB)
  states : List (Nat × RpcState)
  doneFlags : List Nat
  trace : List Nat
  deriving DecidableEq, Repr

/-- Python exceptions relevant here: RuntimeError raised by the loop itself,
and exceptions escaping from a callback. -/
inductive Err
  | runtimeError
  | callbackExc
  deriving DecidableEq, Repr

deriving instance DecidableEq for Except

/-- Result of a stateful operation: a value or a propagating exception,
together with the loop state after all mutations performed so far. -/
structure Outcome (α : Type) where
  res : Except Err α
  state : Loop
  deriving DecidableEq

/-- The external `datastore_rpc.MultiRpc.wait_any` primitive: given the
pending table it returns the handle of a completed rpc, or None. -/
abbrev Oracle := List (Nat × Option CB) → Option Nat

/-- Observable state of the rpc with the given id (IDLE when unknown). -/
def stateOf (s : Loop) (i : Nat) : RpcState :=
  (s.states.lookup i).getD .idle

/-- Invoke a callback: `callback(*args, **kwds)`. -/
def invoke : CB → Loop → Outcome Unit
  | .plain i, s => ⟨.ok (), { s with trace := s.trace ++ [i] }⟩
  | .raising i, s => ⟨.error .callbackExc, { s with trace := s.trace ++ [i] }⟩
  | .nullFn, s => ⟨.error .callbackExc, s⟩
  | .guard m inner, s =>
      if stateOf s m = .finishing ∧ m ∉ s.doneFlags then
        invoke inner { s with doneFlags := m :: s.doneFlags }
      else ⟨.ok (), s⟩

/-- The `while lo < hi` binary-search loop of `EventLoop.insort_event_right`,
with a fuel counter bounding the iteration count (the interval `hi - lo`
shrinks at every iteration, so any fuel of at least `hi - lo` gives the
loop's exact behavior). -/
def bisectLoop (t : Time) (q : List (Time × CB)) : Nat → Nat → Nat → Nat
  | 0, lo, _ => lo
  | fuel + 1, lo, hi =>
      if lo < hi then
        if t < (q.getD ((lo + hi) / 2) (0, .plain 0)).1 then
          bisectLoop t q fuel lo ((lo + hi) / 2)
        else
          bisectLoop t q fuel ((lo + hi) / 2 + 1) hi
      else lo

/-- The binary search of `EventLoop.insort_event_right`: find the insertion
point for deadline `t` to the right of all entries with deadline `≤ t`. -/
def bisect_right_queue (t : Time) (q : List (Time × CB)) (lo hi : Nat) : Nat :=
  bisectLoop t q (hi - lo) lo hi

/-- `EventLoop.insort_event_right(event)` with the default bounds
`lo = 0`, `hi = len(queue)`: insert `event` keeping the queue sorted,
to the right of events with an equal deadline. -/
def insort_event_right (event : Time × CB) (queue : List (Time × CB)) :
    List (Time × CB) :=
  let lo := bisect_right_queue event.1 queue 0 queue.length
  queue.take lo ++ event :: queue.drop lo

/-- The 1e9 threshold disambiguating relative delays from absolute times. -/
def threshold : Time := 1000000000

/-- `EventLoop.queue_call(delay, callback)`. -/
def queue_call (s : Loop) (delay : Option Time) (callback : CB) : Loop :=
  match delay with
  | none => { s with current := s.current ++ [callback] }
  | some d =>
      if d < threshold then
        { s with queue := insort_event_right (d + s.now, callback) s.queue }
      else
        { s with queue := insort_event_right (d, callback) s.queue }

/-- The rpc argument of `queue_rpc`: a single rpc, or a
`datastore_rpc.MultiRpc` with its list of sub-rpc handles. -/
inductive RpcArg
  | single (i : Nat)
  | multi (m : Nat) (subs : List Nat)
  deriving DecidableEq, Repr

/-- The handle whose observable state `queue_rpc` checks (the rpc itself;
for a MultiRpc, its aggregate state). -/
def RpcArg.topId : RpcArg → Nat
  | .single i => i
  | .multi m _ => m

/-- Python dict assignment `d[k] = v`: replace in place or append. -/
def dictInsert (k : Nat) (v : Option CB) :
    List (Nat × Option CB) → List (Nat × Option CB)
  | [] => [(k, v)]
  | (k1, v1) :: rest =>
      if k1 = k then (k, v) :: rest else (k1, v1) :: dictInsert k v rest

/-- Python dict deletion `del d[k]` (first, hence only, occurrence). -/
def eraseKey (k : Nat) : List (Nat × Option CB) → List (Nat × Option CB)
  | [] => []
  | (k1, v1) :: rest =>
      if k1 = k then rest else (k1, v1) :: eraseKey k rest

/-- `EventLoop.queue_rpc(rpc, callback)`: None rpc is ignored; an rpc not
yet sent to the service raises RuntimeError; a MultiRpc with more than one
sub-rpc has its `__done` flag reset and the callback wrapped in the
`help_multi_rpc_along` guard; the (possibly wrapped) callback is registered
under every sub-rpc handle. -/
def queue_rpc (s : Loop) (rpc : Option RpcArg) (callback : Option CB) :
    Outcome Unit :=
  match rpc with
  | none => ⟨.ok (), s⟩
  | some r =>
      if stateOf s r.topId = .running ∨ stateOf s r.topId = .finishing then
        match r with
        | .multi m subs =>
            if 1 < subs.length then
              let s1 := { s with doneFlags := s.doneFlags.filter (fun x => x != m) }
              let cb : Option CB :=
                some (.guard m (match callback with | some c => c | none => .nullFn))
              ⟨.ok (), { s1 with
                rpcs := subs.foldl (fun t sub => dictInsert sub cb t) s1.rpcs }⟩
            else
              ⟨.ok (), { s with
                rpcs := subs.foldl (fun t sub => dictInsert sub callback t) s.rpcs }⟩
        | .single i =>
            ⟨.ok (), { s with rpcs := dictInsert i callback s.rpcs }⟩
      else ⟨.error .runtimeError, s⟩

/-- `EventLoop.add_idle(callback)`. -/
def add_idle (s : Loop) (item : IdleItem) : Loop :=
  { s with idlers := s.idlers ++ [item] }

/-- `EventLoop.run_idle()`: run one idle callback if one is runnable.
Returns True if one was called, False otherwise.  The popped item is
re-appended according to the callback result (None removes it); a raising
callback propagates its exception with the item already popped. -/
def run_idle (s : Loop) : Outcome Bool :=
  if s.idlers = [] ∨ s.idlers.length ≤ s.inactive then ⟨.ok false, s⟩
  else
    match s.idlers with
    | [] => ⟨.ok false, s⟩
    | idler :: rest =>
        let s1 := { s with idlers := rest, trace := s.trace ++ [idler.id] }
        match idler.script with
        | .raise :: _ => ⟨.error .callbackExc, s1⟩
        | .remove :: _ => ⟨.ok true, s1⟩
        | [] => ⟨.ok true, s1⟩
        | .noWork :: tl =>
            ⟨.ok true, { s1 with
              inactive := s1.inactive + 1,
              idlers := s1.idlers ++ [⟨idler.id, tl⟩] }⟩
        | .didWork :: tl =>
            ⟨.ok true, { s1 with
              inactive := 0,
              idlers := s1.idlers ++ [⟨idler.id, tl⟩] }⟩

/-- Lift the outcome of a callback invocation to the `return 0` of run0. -/
def mapWork (r : Outcome Unit) : Outcome (Option Time) :=
  ⟨r.res.map (fun _ => some 0), r.state⟩

/-- The tail of `EventLoop.run0`: the `if self.rpcs:` block followed by
`return delay`.  `delay` is the remembered wait from the timer check. -/
def run0_rpcs (o : Oracle) (s : Loop) (delay : Option Time) :
    Outcome (Option Time) :=
  match s.rpcs with
  | [] => ⟨.ok delay, s⟩
  | _ :: _ =>
      let s1 := { s with inactive := 0 }
      match o s1.rpcs with
      | none => ⟨.ok (some 0), s1⟩
      | some h =>
          match s1.rpcs.lookup h with
          | none => ⟨.error .runtimeError, s1⟩
          | some cb =>
              let s2 := { s1 with rpcs := eraseKey h s1.rpcs }
              match cb with
              | some c => mapWork (invoke c s2)
              | none => ⟨.ok (some 0), s2⟩

/-- `EventLoop.run0()`: run at most one item; returns a time to sleep if
something happened (may be 0), None if all queues are empty. -/
def run0 (o : Oracle) (s : Loop) : Outcome (Option Time) :=
  match s.current with
  | callback :: rest =>
      mapWork (invoke callback { s with inactive := 0, current := rest })
  | [] =>
      match run_idle s with
      | ⟨.error e, s1⟩ => ⟨.error e, s1⟩
      | ⟨.ok true, s1⟩ => ⟨.ok (some 0), s1⟩
      | ⟨.ok false, s1⟩ =>
          match s1.queue with
          | (t, callback) :: qrest =>
              if t - s1.now ≤ 0 then
                mapWork (invoke callback { s1 with inactive := 0, queue := qrest })
              else
                run0_rpcs o s1 (some (t - s1.now))
          | [] => run0_rpcs o s1 none

/-- `EventLoop.run1()`: run one item or sleep; True if something happened,
False if all queues are empty. -/
def run1 (o : Oracle) (s : Loop) : Outcome Bool :=
  match run0 o s with
  | ⟨.error e, s1⟩ => ⟨.error e, s1⟩
  | ⟨.ok none, s1⟩ => ⟨.ok false, s1⟩
  | ⟨.ok (some delay), s1⟩ =>
      if 0 < delay then ⟨.ok true, { s1 with now := s1.now + delay }⟩
      else ⟨.ok true, s1⟩

/-- The `while True` loop of `EventLoop.run`, with explicit fuel: the result
is True when the loop exited because `run1` reported no more work, False
when the fuel ran out first. -/
def runFuel (o : Oracle) : Nat → Loop → Outcome Bool
  | 0, s => ⟨.ok false, s⟩
  | fuel + 1, s =>
      match run1 o s with
      | ⟨.error e, s1⟩ => ⟨.error e, s1⟩
      | ⟨.ok false, s1⟩ => ⟨.ok true, s1⟩
      | ⟨.ok true, s1⟩ => runFuel o fuel s1

/-- `EventLoop.run()`: reset `inactive` and loop until nothing is left,
with the given fuel bounding the number of iterations. -/
def run (o : Oracle) (fuel : Nat) (s : Loop) : Outcome Bool :=
  runFuel o fuel { s with inactive := 0 }

/-- A loop with empty structures at the given clock value. -/
def emptyLoop (t : Time) : Loop :=
  { now := t, current := [], idlers := [], inactive := 0, queue := [],
    rpcs := [], states := [], doneFlags := [], trace := [] }

/-- A well-behaved waiter: it completes the first pending rpc. -/
def headOracle : Oracle := fun tbl => tbl.head?.map Prod.fst

/-- A waiter respecting the `wait_any` contract: on a non-empty table it
returns a handle that is a key of the table. -/
def ValidOracle (o : Oracle) : Prop :=
  ∀ tbl, tbl ≠ [] → ∃ h, o tbl = some h ∧ (tbl.lookup h).isSome

/-- The id a callback records in the trace when it starts running. -/
def cbTag : CB → Nat
  | .plain i => i
  | .raising i => i
  | .nullFn => 0
  | .guard m _ => m

/-- Termination measure contribution of one idle item. -/
def idlerWeight (it : IdleItem) : Nat := it.script.length + 1

/-- Termination measure of a loop state: pending immediate callbacks, idle
script steps, timers (two loop iterations each: sleep then fire), rpcs. -/
def loopSize (s : Loop) : Nat :=
  s.current.length + (s.idlers.map idlerWeight).sum
    + 2 * s.queue.length + s.rpcs.length

/-- The timer-queue invariant: deadlines are nondecreasing. -/
def SortedQ (q : List (Time × CB)) : Prop :=
  q.Pairwise (fun a b => a.1 ≤ b.1)

/-! Basic lemmas about `run_idle` and `invoke`. -/

/-- When no idle callback is runnable, `run_idle` reports False and leaves
the state untouched. -/
lemma run_idle_not_runnable (s : Loop)
    (h : s.idlers = [] ∨ s.idlers.length ≤ s.inactive) :
    run_idle s = ⟨.ok false, s⟩ := by
  unfold run_idle
  rw [if_pos h]

/-- When an idle callback is runnable, `run_idle` does not report False. -/
lemma run_idle_ne_false (s : Loop) (hne : s.idlers ≠ [])
    (hlt : s.inactive < s.idlers.length) :
    (run_idle s).res ≠ .ok false := by
  unfold run_idle
  rw [if_neg (not_or.mpr ⟨hne, not_le.mpr hlt⟩)]
  rcases hl : s.idlers with _ | ⟨it, rest⟩
  · exact absurd hl hne
  · dsimp only
    rcases hs : it.script with _ | ⟨b, tl⟩
    · simp
    · cases b <;> simp

/-- If `run_idle` reports False, nothing happened and no idle callback was
runnable. -/
lemma run_idle_false (s : Loop) (h : (run_idle s).res = .ok false) :
    run_idle s = ⟨.ok false, s⟩ ∧
      (s.idlers = [] ∨ s.idlers.length ≤ s.inactive) := by
  by_cases hc : s.idlers = [] ∨ s.idlers.length ≤ s.inactive
  · exact ⟨run_idle_not_runnable s hc, hc⟩
  · exfalso
    rcases hl : s.idlers with _ | ⟨it, rest⟩
    · exact hc (Or.inl hl)
    · exact run_idle_ne_false s (by rw [hl]; simp)
        (lt_of_not_le fun hle => hc (Or.inr hle)) h

/-- A callback invocation changes nothing but `trace` and `doneFlags`. -/
lemma invoke_frame (c : CB) : ∀ s : Loop,
    (invoke c s).state.current = s.current ∧
    (invoke c s).state.idlers = s.idlers ∧
    (invoke c s).state.inactive = s.inactive ∧
    (invoke c s).state.queue = s.queue ∧
    (invoke c s).state.rpcs = s.rpcs ∧
    (invoke c s).state.states = s.states ∧
    (invoke c s).state.now = s.now := by
  induction c with
  | plain i => intro s; exact ⟨rfl, rfl, rfl, rfl, rfl, rfl, rfl⟩
  | raising i => intro s; exact ⟨rfl, rfl, rfl, rfl, rfl, rfl, rfl⟩
  | nullFn => intro s; exact ⟨rfl, rfl, rfl, rfl, rfl, rfl, rfl⟩
  | guard m inner ih =>
      intro s
      simp only [invoke]
      split
      · exact ih _
      · exact ⟨rfl, rfl, rfl, rfl, rfl, rfl, rfl⟩

/-- A callback invocation appends at most one entry to the trace. -/
lemma invoke_trace_le (c : CB) : ∀ s : Loop,
    (invoke c s).state.trace.length ≤ s.trace.length + 1 := by
  induction c with
  | plain i => intro s; simp [invoke]
  | raising i => intro s; simp [invoke]
  | nullFn => intro s; simp [invoke]
  | guard m inner ih =>
      intro s
      simp only [invoke]
      split
      · exact ih _
      · simp

/-- One idle step appends at most one entry to the trace. -/
lemma run_idle_trace_le (s : Loop) :
    (run_idle s).state.trace.length ≤ s.trace.length + 1 := by
  unfold run_idle
  split
  · simp
  · split
    · simp
    · split <;> simp

/-! Claim theorems. -/

/-- C5: queue_call with delay None appends to the immediate FIFO; a delay
below the 1e9 threshold schedules a timed event at now + delay; a delay at
or above the threshold schedules it at the absolute time delay; in both
timed cases the immediate queue is unchanged. -/
theorem C5_queue_call_dispatch (s : Loop) (cb : CB) :
    queue_call s none cb = { s with current := s.current ++ [cb] }
  ∧ (∀ d : Time, d < threshold →
      queue_call s (some d) cb
        = { s with queue := insort_event_right (d + s.now, cb) s.queue })
  ∧ (∀ d : Time, threshold ≤ d →
      queue_call s (some d) cb
        = { s with queue := insort_event_right (d, cb) s.queue })
  ∧ (∀ d : Time, (queue_call s (some d) cb).current = s.current) := by
  refine ⟨rfl, fun d hd => ?_, fun d hd => ?_, fun d => ?_⟩
  · simp only [queue_call]
    rw [if_pos hd]
  · simp only [queue_call]
    rw [if_neg (not_lt.mpr hd)]
  · simp only [queue_call]
    split <;> rfl

/-- C5 witness: a relative delay of 5 at clock 2 lands at deadline 7, an
absolute 1e9 stays at 1e9, and None goes to the immediate queue. -/
theorem C5_queue_call_dispatch_witness :
    ((5 : Time) < threshold
      ∧ queue_call (emptyLoop 2) (some 5) (.plain 1)
          = { emptyLoop 2 with queue := insort_event_right (5 + 2, .plain 1) [] })
  ∧ (threshold ≤ (1000000000 : Time)
      ∧ queue_call (emptyLoop 2) (some 1000000000) (.plain 1)
          = { emptyLoop 2 with queue := insort_event_right (1000000000, .plain 1) [] }) :=
  ⟨⟨by decide, (C5_queue_call_dispatch (emptyLoop 2) (.plain 1)).2.1 5 (by decide)⟩,
   ⟨by decide, (C5_queue_call_dispatch (emptyLoop 2) (.plain 1)).2.2.1 1000000000 (by decide)⟩⟩

/-- C10: queue_rpc with a None rpc returns normally and changes nothing. -/
theorem C10_queue_rpc_none (s : Loop) (cb : Option CB) :
    queue_rpc s none cb = ⟨.ok (), s⟩ := rfl

/-- C8: queue_rpc on an rpc whose observable state is neither RUNNING nor
FINISHING raises RuntimeError with the loop unchanged (in particular the
pending table gains no entry); on a dispatched rpc no error is raised. -/
theorem C8_queue_rpc_state_check (s : Loop) (r : RpcArg) (cb : Option CB) :
    (stateOf s r.topId ≠ .running → stateOf s r.topId ≠ .finishing →
      queue_rpc s (some r) cb = ⟨.error .runtimeError, s⟩)
  ∧ ((stateOf s r.topId = .running ∨ stateOf s r.topId = .finishing) →
      ∃ s1, queue_rpc s (some r) cb = ⟨.ok (), s1⟩) := by
  constructor
  · intro h1 h2
    simp only [queue_rpc]
    rw [if_neg (by simp [h1, h2])]
  · intro h
    simp only [queue_rpc]
    rw [if_pos h]
    rcases r with i | ⟨m, subs⟩
    · exact ⟨_, rfl⟩
    · dsimp only
      by_cases hl : 1 < subs.length
      · rw [if_pos hl]
        exact ⟨_, rfl⟩
      · rw [if_neg hl]
        exact ⟨_, rfl⟩

/-- C8 witness: an rpc in IDLE state is rejected with the table unchanged;
one in RUNNING state is accepted. -/
theorem C8_queue_rpc_state_check_witness :
    queue_rpc (emptyLoop 0) (some (.single 1)) none
        = ⟨.error .runtimeError, emptyLoop 0⟩
  ∧ ∃ s1, queue_rpc { emptyLoop 0 with states := [(1, .running)] }
        (some (.single 1)) none = ⟨.ok (), s1⟩ :=
  ⟨(C8_queue_rpc_state_check (emptyLoop 0) (.single 1) none).1
      (by decide) (by decide),
   (C8_queue_rpc_state_check { emptyLoop 0 with states := [(1, .running)] }
      (.single 1) none).2 (Or.inl (by decide))⟩

/-- C9: when run0 reaches the rpc wait with a non-empty pending table and
the waiter returns a handle that is not a key of the table, the loop raises
RuntimeError and invokes no callback (only `inactive` was reset). -/
theorem C9_wait_any_contract (o : Oracle) (s : Loop) (h : Nat)
    (hc : s.current = [])
    (hni : s.idlers = [] ∨ s.idlers.length ≤ s.inactive)
    (hq : s.queue = [] ∨ ∃ t c qrest, s.queue = (t, c) :: qrest ∧ 0 < t - s.now)
    (hr : s.rpcs ≠ [])
    (ho : o s.rpcs = some h)
    (hmem : s.rpcs.lookup h = none) :
    run0 o s = ⟨.error .runtimeError, { s with inactive := 0 }⟩ := by
  obtain ⟨now1, cur, idl, ina, qu, rp, stts, df, tr⟩ := s
  dsimp only at hc hni hq hr ho hmem ⊢
  subst hc
  rcases rp with _ | ⟨p, rest⟩
  · exact absurd rfl hr
  · simp only [run0]
    try dsimp only
    rw [run_idle_not_runnable _ hni]
    try dsimp only
    have hrpc : ∀ d, run0_rpcs o
        ⟨now1, [], idl, ina, qu, p :: rest, stts, df, tr⟩ d
        = ⟨.error .runtimeError, ⟨now1, [], idl, 0, qu, p :: rest, stts, df, tr⟩⟩ := by
      intro d
      simp only [run0_rpcs]
      try dsimp only
      rw [ho]
      try dsimp only
      rw [hmem]
    rcases hq with hq | ⟨t, c, qrest, hq, hpos⟩
    · subst hq
      exact hrpc none
    · subst hq
      try dsimp only
      rw [if_neg (not_le.mpr hpos)]
      exact hrpc (some (t - now1))

/-- C9 witness: with one pending rpc under handle 1 and a waiter answering
handle 2, run0 raises RuntimeError. -/
theorem C9_wait_any_contract_witness :
    run0 (fun _ => some 2) { emptyLoop 0 with rpcs := [(1, none)] }
      = ⟨.error .runtimeError,
          { emptyLoop 0 with rpcs := [(1, none)], inactive := 0 }⟩ :=
  C9_wait_any_contract (fun _ => some 2)
    { emptyLoop 0 with rpcs := [(1, none)] } 2
    rfl (Or.inl rfl) (Or.inl rfl) (by decide) rfl (by decide)

/-- C3 failing input: a loop whose only idle callback raises when invoked. -/
def c3state : Loop := { emptyLoop 0 with idlers := [⟨7, [.raise]⟩] }

/-- C3: contrary to the claim (and to add_idle's own docstring), run_idle
does not catch exceptions raised by idle callbacks: the exception
propagates out of run_idle, run1 and run to the loop's caller.  The
offending item is indeed gone from the idler queue (it was popped before
the call and is never re-appended). -/
theorem C3_idle_exception_propagates :
    run_idle c3state
        = ⟨.error .callbackExc, { c3state with idlers := [], trace := [7] }⟩
  ∧ run1 headOracle c3state
        = ⟨.error .callbackExc, { c3state with idlers := [], trace := [7] }⟩
  ∧ run headOracle 5 c3state
        = ⟨.error .callbackExc, { c3state with idlers := [], trace := [7] }⟩ :=
  ⟨by decide, by decide, by decide⟩

/-- The trace grows by at most one entry in `run0_rpcs`. -/
lemma run0_rpcs_trace_le (o : Oracle) (s : Loop) (d : Option Time) :
    (run0_rpcs o s d).state.trace.length ≤ s.trace.length + 1 := by
  simp only [run0_rpcs]
  split
  · simp
  · split
    · simp
    · split
      · simp
      · split
        · exact invoke_trace_le _ _
        · simp

/-- One loop step performs at most one unit of work: the trace grows by at
most one entry in `run0`. -/
lemma run0_trace_le (o : Oracle) (s : Loop) :
    (run0 o s).state.trace.length ≤ s.trace.length + 1 := by
  simp only [run0]
  split
  · exact invoke_trace_le _ _
  · split
    · rename_i heq
      have h := run_idle_trace_le s
      rw [heq] at h
      exact h
    · rename_i heq
      have h := run_idle_trace_le s
      rw [heq] at h
      exact h
    · rename_i s1 heq
      have h1 : s1 = s :=
        congrArg Outcome.state
          ((run_idle_false s (by rw [heq])).1 ▸ heq).symm
      subst h1
      split
      · split
        · exact invoke_trace_le _ _
        · exact run0_rpcs_trace_le _ _ _
      · exact run0_rpcs_trace_le _ _ _

/-- C1: run0 performs at most one unit of work, chosen in strict priority
order: a non-empty immediate queue is served first (pop front, invoke,
return 0); otherwise a runnable idle callback is run (return 0); otherwise
a due timer event is popped and invoked (return 0); otherwise with a
non-empty pending table the loop waits for one completion, removes its
entry, invokes its callback and returns 0; otherwise it returns the wait
to the earliest not-yet-due timer, or None when all four structures are
empty. -/
theorem C1_run0_priority (o : Oracle) (s : Loop) :
    ((run0 o s).state.trace.length ≤ s.trace.length + 1)
  ∧ (∀ c rest, s.current = c :: rest →
      run0 o s = mapWork (invoke c { s with inactive := 0, current := rest }))
  ∧ (s.current = [] → s.idlers ≠ [] → s.inactive < s.idlers.length →
      (run_idle s).res ≠ .ok false ∧
        run0 o s = ⟨(run_idle s).res.map (fun _ => some 0), (run_idle s).state⟩)
  ∧ (∀ t c qrest, s.current = [] →
      (s.idlers = [] ∨ s.idlers.length ≤ s.inactive) →
      s.queue = (t, c) :: qrest → t - s.now ≤ 0 →
      run0 o s = mapWork (invoke c { s with inactive := 0, queue := qrest }))
  ∧ (s.current = [] → (s.idlers = [] ∨ s.idlers.length ≤ s.inactive) →
      (s.queue = [] ∨ ∃ t c qrest, s.queue = (t, c) :: qrest ∧ 0 < t - s.now) →
      s.rpcs ≠ [] → ∀ h c, o s.rpcs = some h → s.rpcs.lookup h = some (some c) →
      run0 o s = mapWork (invoke c { s with inactive := 0, rpcs := eraseKey h s.rpcs }))
  ∧ (s.current = [] → (s.idlers = [] ∨ s.idlers.length ≤ s.inactive) →
      (s.queue = [] ∨ ∃ t c qrest, s.queue = (t, c) :: qrest ∧ 0 < t - s.now) →
      s.rpcs ≠ [] → ∀ h, o s.rpcs = some h → s.rpcs.lookup h = some none →
      run0 o s = ⟨.ok (some 0), { s with inactive := 0, rpcs := eraseKey h s.rpcs }⟩)
  ∧ (∀ t c qrest, s.current = [] →
      (s.idlers = [] ∨ s.idlers.length ≤ s.inactive) →
      s.queue = (t, c) :: qrest → 0 < t - s.now → s.rpcs = [] →
      run0 o s = ⟨.ok (some (t - s.now)), s⟩)
  ∧ (s.current = [] → s.idlers = [] → s.queue = [] → s.rpcs = [] →
      run0 o s = ⟨.ok none, s⟩) := by
  obtain ⟨now1, cur, idl, ina, qu, rp, stts, df, tr⟩ := s
  refine ⟨run0_trace_le o _, ?_, ?_, ?_, ?_, ?_, ?_, ?_⟩
  · intro c rest hc
    dsimp only at hc
    subst hc
    rfl
  · intro hc hne hlt
    dsimp only at hc hne hlt
    subst hc
    refine ⟨run_idle_ne_false _ hne hlt, ?_⟩
    simp only [run0]
    rcases hri : run_idle ⟨now1, [], idl, ina, qu, rp, stts, df, tr⟩ with ⟨res, s1⟩
    rcases res with e | b
    · rfl
    · rcases b with _ | _
      · exact absurd (congrArg Outcome.res hri) (run_idle_ne_false _ hne hlt)
      · rfl
  · intro t c qrest hc hni hq hdue
    dsimp only at hc hni hq hdue
    subst hc
    subst hq
    simp only [run0]
    rw [run_idle_not_runnable _ hni]
    try dsimp only
    rw [if_pos hdue]
  · intro hc hni hq hr h c ho hcb
    dsimp only at hc hni hq hr ho hcb
    subst hc
    rcases rp with _ | ⟨p, rest⟩
    · exact absurd rfl hr
    · simp only [run0]
      rw [run_idle_not_runnable _ hni]
      try dsimp only
      have hrpc : ∀ d, run0_rpcs o
          ⟨now1, [], idl, ina, qu, p :: rest, stts, df, tr⟩ d
          = mapWork (invoke c
              ⟨now1, [], idl, 0, qu, eraseKey h (p :: rest), stts, df, tr⟩) := by
        intro d
        simp only [run0_rpcs]
        try dsimp only
        rw [ho]
        try dsimp only
        rw [hcb]
      rcases hq with hq | ⟨t, tc, qrest, hq, hpos⟩
      · subst hq
        try dsimp only
        exact hrpc none
      · subst hq
        try dsimp only
        rw [if_neg (not_le.mpr hpos)]
        exact hrpc (some (t - now1))
  · intro hc hni hq hr h ho hcb
    dsimp only at hc hni hq hr ho hcb
    subst hc
    rcases rp with _ | ⟨p, rest⟩
    · exact absurd rfl hr
    · simp only [run0]
      rw [run_idle_not_runnable _ hni]
      try dsimp only
      have hrpc : ∀ d, run0_rpcs o
          ⟨now1, [], idl, ina, qu, p :: rest, stts, df, tr⟩ d
          = ⟨.ok (some 0),
              ⟨now1, [], idl, 0, qu, eraseKey h (p :: rest), stts, df, tr⟩⟩ := by
        intro d
        simp only [run0_rpcs]
        try dsimp only
        rw [ho]
        try dsimp only
        rw [hcb]
      rcases hq with hq | ⟨t, tc, qrest, hq, hpos⟩
      · subst hq
        try dsimp only
        exact hrpc none
      · subst hq
        try dsimp only
        rw [if_neg (not_le.mpr hpos)]
        exact hrpc (some (t - now1))
  · intro t c qrest hc hni hq hpos hr
    dsimp only at hc hni hq hpos hr
    subst hc
    subst hq
    subst hr
    simp only [run0]
    rw [run_idle_not_runnable _ hni]
    try dsimp only
    rw [if_neg (not_le.mpr hpos)]
    rfl
  · intro hc hi hq hr
    dsimp only at hc hi hq hr
    subst hc
    subst hi
    subst hq
    subst hr
    rfl

/-- C1 witness: with one immediate callback pending, run0 pops and invokes
exactly it. -/
theorem C1_run0_priority_witness :
    run0 headOracle { emptyLoop 0 with current := [.plain 1] }
      = mapWork (invoke (.plain 1)
          { { emptyLoop 0 with current := [.plain 1] } with
              inactive := 0, current := [] }) :=
  (C1_run0_priority headOracle { emptyLoop 0 with current := [.plain 1] }).2.1
    (.plain 1) [] rfl

/-- Draining a loop that only contains idle items: with `A` the items that
have already reported no work since the last reset (`inactive = |A|`) and
`P` the pending items whose next invocation reports no work, the loop
invokes each pending item exactly once, re-appends it, and stops. -/
lemma drain_idlers (o : Oracle) :
    ∀ (P : List IdleItem) (A : List IdleItem) (s : Loop) (f : Nat),
      s.current = [] → s.queue = [] → s.rpcs = [] →
      s.idlers = P ++ A → s.inactive = A.length →
      (∀ it ∈ P, ∃ tl, it.script = .noWork :: tl) →
      P.length + 1 ≤ f →
      ∃ sf, runFuel o f s = ⟨.ok true, sf⟩
        ∧ sf.trace = s.trace ++ P.map (fun it => it.id)
        ∧ sf.idlers = A ++ P.map (fun it => ⟨it.id, it.script.tail⟩)
        ∧ sf.inactive = A.length + P.length
        ∧ sf.current = [] ∧ sf.queue = [] ∧ sf.rpcs = []
        ∧ sf.now = s.now ∧ sf.states = s.states ∧ sf.doneFlags = s.doneFlags := by
  intro P
  induction P with
  | nil =>
      intro A s f hc hq hr hid hina hP hf
      obtain ⟨now1, cur, idl, ina, qu, rp, stts, df, tr⟩ := s
      dsimp only at hc hq hr hid hina ⊢
      subst hc; subst hq; subst hr; subst hina
      simp only [List.nil_append] at hid
      subst hid
      rcases f with _ | f1
      · omega
      · have h0 : run0 o ⟨now1, [], idl, idl.length, [], [], stts, df, tr⟩
            = ⟨.ok none, ⟨now1, [], idl, idl.length, [], [], stts, df, tr⟩⟩ := by
          simp only [run0]
          rw [run_idle_not_runnable _ (Or.inr le_rfl)]
          rfl
        have h1 : run1 o ⟨now1, [], idl, idl.length, [], [], stts, df, tr⟩
            = ⟨.ok false, ⟨now1, [], idl, idl.length, [], [], stts, df, tr⟩⟩ := by
          simp only [run1, h0]
        refine ⟨⟨now1, [], idl, idl.length, [], [], stts, df, tr⟩,
          ?_, by simp, by simp, by simp, rfl, rfl, rfl, rfl, rfl, rfl⟩
        simp only [runFuel, h1]
  | cons p P1 ih =>
      intro A s f hc hq hr hid hina hP hf
      obtain ⟨pid, ps⟩ := p
      obtain ⟨tl, htl⟩ := hP ⟨pid, ps⟩ (List.mem_cons_self _ _)
      dsimp only at htl
      subst htl
      obtain ⟨now1, cur, idl, ina, qu, rp, stts, df, tr⟩ := s
      dsimp only at hc hq hr hid hina ⊢
      subst hc; subst hq; subst hr; subst hina; subst hid
      rcases f with _ | f1
      · omega
      · have hri : run_idle ⟨now1, [],
              (⟨pid, .noWork :: tl⟩ :: P1) ++ A, A.length, [], [], stts, df, tr⟩
            = ⟨.ok true, ⟨now1, [], (P1 ++ A) ++ [⟨pid, tl⟩], A.length + 1,
              [], [], stts, df, tr ++ [pid]⟩⟩ := by
          unfold run_idle
          rw [if_neg (not_or.mpr ⟨by simp, by simp; omega⟩)]
          rfl
        have h0 : run0 o ⟨now1, [],
              (⟨pid, .noWork :: tl⟩ :: P1) ++ A, A.length, [], [], stts, df, tr⟩
            = ⟨.ok (some 0), ⟨now1, [], (P1 ++ A) ++ [⟨pid, tl⟩], A.length + 1,
              [], [], stts, df, tr ++ [pid]⟩⟩ := by
          simp only [run0]
          rw [hri]
        have h1 : run1 o ⟨now1, [],
              (⟨pid, .noWork :: tl⟩ :: P1) ++ A, A.length, [], [], stts, df, tr⟩
            = ⟨.ok true, ⟨now1, [], (P1 ++ A) ++ [⟨pid, tl⟩], A.length + 1,
              [], [], stts, df, tr ++ [pid]⟩⟩ := by
          simp only [run1, h0]
          rw [if_neg (lt_irrefl 0)]
        obtain ⟨sf, hrun, htr, hidl, hina2, hc2, hq2, hr2, hnow2, hst2, hdf2⟩ :=
          ih (A ++ [⟨pid, tl⟩])
            ⟨now1, [], (P1 ++ A) ++ [⟨pid, tl⟩], A.length + 1,
              [], [], stts, df, tr ++ [pid]⟩ f1
            rfl rfl rfl (by simp) (by simp)
            (fun it hit => hP it (List.mem_cons_of_mem _ hit))
            (by simp only [List.length_cons] at hf; omega)
        refine ⟨sf, ?_, ?_, ?_, ?_, hc2, hq2, hr2, hnow2, hst2, hdf2⟩
        · simp only [runFuel, h1]
          exact hrun
        · rw [htr]
          simp
        · rw [hidl]
          simp
        · rw [hina2]
          simp [List.length_append]
          omega

/-- C7: starting from a loop holding only N idle items that each report
no work when invoked, one drain pass invokes each exactly once, leaves all
N items registered, and ends with `inactive = N`; and `run_idle` pops an
item only when `inactive` is strictly below the idler count, reporting
False without any change otherwise. -/
theorem C7_idle_starvation (o : Oracle) :
    (∀ (s : Loop) (L : List IdleItem), s.current = [] → s.queue = [] →
      s.rpcs = [] → s.idlers = L →
      (∀ it ∈ L, ∃ tl, it.script = .noWork :: tl) →
      ∃ sf, run o (L.length + 1) s = ⟨.ok true, sf⟩
        ∧ sf.trace = s.trace ++ L.map (fun it => it.id)
        ∧ sf.idlers = L.map (fun it => ⟨it.id, it.script.tail⟩)
        ∧ sf.inactive = L.length)
  ∧ (∀ s : Loop, s.idlers.length ≤ s.inactive → run_idle s = ⟨.ok false, s⟩)
  ∧ (∀ s : Loop, s.idlers ≠ [] → s.inactive < s.idlers.length →
      (run_idle s).res ≠ .ok false) := by
  refine ⟨?_, ?_, ?_⟩
  · intro s L hc hq hr hid hL
    obtain ⟨sf, hrun, htr, hidl, hina, _⟩ :=
      drain_idlers o L [] { s with inactive := 0 } (L.length + 1)
        hc hq hr (by simp [hid]) rfl hL le_rfl
    exact ⟨sf, hrun, htr, by rw [hidl]; simp, by rw [hina]; simp⟩
  · intro s h
    exact run_idle_not_runnable s (Or.inr h)
  · exact run_idle_ne_false

/-- C7 witness: two no-work idlers, one drain pass. -/
theorem C7_idle_starvation_witness :
    ∃ sf, run headOracle 3
        { emptyLoop 0 with idlers := [⟨1, [.noWork]⟩, ⟨2, [.noWork]⟩] }
        = ⟨.ok true, sf⟩
      ∧ sf.trace = [] ++ [⟨1, ([.noWork] : List IdleBeh)⟩,
          ⟨2, [.noWork]⟩].map (fun it : IdleItem => it.id)
      ∧ sf.idlers = [⟨1, ([.noWork] : List IdleBeh)⟩,
          ⟨2, [.noWork]⟩].map (fun it : IdleItem => ⟨it.id, it.script.tail⟩)
      ∧ sf.inactive = 2 :=
  (C7_idle_starvation headOracle).1
    { emptyLoop 0 with idlers := [⟨1, [.noWork]⟩, ⟨2, [.noWork]⟩] }
    [⟨1, [.noWork]⟩, ⟨2, [.noWork]⟩] rfl rfl rfl rfl
    (by
      intro it hit
      simp only [List.mem_cons, List.not_mem_nil, or_false] at hit
      rcases hit with rfl | rfl
      · exact ⟨[], rfl⟩
      · exact ⟨[], rfl⟩)

/-! Lemmas about the pending-rpc table. -/

/-- A successful lookup locates an entry of the table. -/
lemma mem_of_lookup (h : Nat) : ∀ (tbl : List (Nat × Option CB)) (v : Option CB),
    tbl.lookup h = some v → (h, v) ∈ tbl := by
  intro tbl
  induction tbl with
  | nil => intro v hv; simp [List.lookup] at hv
  | cons kv rest ih =>
      intro v hv
      rcases kv with ⟨k1, v1⟩
      simp only [List.lookup] at hv
      by_cases hk : h = k1
      · subst hk
        simp only [beq_self_eq_true] at hv
        rcases hv with ⟨rfl⟩
        exact List.mem_cons_self _ _
      · rw [show (h == k1) = false by simp [hk]] at hv
        exact List.mem_cons_of_mem _ (ih v hv)

/-- Deleting a present key shortens the table by exactly one entry. -/
lemma eraseKey_length (h : Nat) : ∀ (tbl : List (Nat × Option CB)) (v : Option CB),
    tbl.lookup h = some v → (eraseKey h tbl).length + 1 = tbl.length := by
  intro tbl
  induction tbl with
  | nil => intro v hv; simp [List.lookup] at hv
  | cons kv rest ih =>
      intro v hv
      rcases kv with ⟨k1, v1⟩
      simp only [List.lookup] at hv
      by_cases hk : k1 = h
      · subst hk
        simp only [eraseKey, if_pos rfl]
        simp
      · rw [show (h == k1) = false by simp [Ne.symm hk]] at hv
        simp only [eraseKey, if_neg hk]
        simp [ih v hv]

/-- Deleting a key only removes entries. -/
lemma eraseKey_subset (h : Nat) : ∀ (tbl : List (Nat × Option CB)) (kv : Nat × Option CB),
    kv ∈ eraseKey h tbl → kv ∈ tbl := by
  intro tbl
  induction tbl with
  | nil => intro kv hkv; simp [eraseKey] at hkv
  | cons p rest ih =>
      intro kv hkv
      rcases p with ⟨k1, v1⟩
      simp only [eraseKey] at hkv
      by_cases hk : k1 = h
      · rw [if_pos hk] at hkv
        exact List.mem_cons_of_mem _ hkv
      · rw [if_neg hk] at hkv
        rcases List.mem_cons.mp hkv with rfl | hkv2
        · exact List.mem_cons_self _ _
        · exact List.mem_cons_of_mem _ (ih kv hkv2)

/-- dict assignment of a constant value preserves a constant-value table. -/
lemma dictInsert_values (v : Option CB) (k : Nat) :
    ∀ tbl, (∀ kv ∈ tbl, kv.2 = v) → ∀ kv ∈ dictInsert k v tbl, kv.2 = v := by
  intro tbl
  induction tbl with
  | nil =>
      intro _ kv hkv
      simp only [dictInsert, List.mem_singleton] at hkv
      subst hkv
      rfl
  | cons p rest ih =>
      intro hall kv hkv
      rcases p with ⟨k1, v1⟩
      simp only [dictInsert] at hkv
      by_cases hk : k1 = k
      · rw [if_pos hk] at hkv
        rcases List.mem_cons.mp hkv with rfl | hkv
        · rfl
        · exact hall _ (List.mem_cons_of_mem _ hkv)
      · rw [if_neg hk] at hkv
        rcases List.mem_cons.mp hkv with rfl | hkv
        · exact hall _ (List.mem_cons_self _ _)
        · exact ih (fun kv2 h2 => hall kv2 (List.mem_cons_of_mem _ h2)) kv hkv

/-- Registering a constant value under every handle yields a constant-value
table. -/
lemma foldl_dictInsert_values (v : Option CB) :
    ∀ (L : List Nat) (tbl : List (Nat × Option CB)),
      (∀ kv ∈ tbl, kv.2 = v) →
      ∀ kv ∈ L.foldl (fun t sub => dictInsert sub v t) tbl, kv.2 = v := by
  intro L
  induction L with
  | nil => intro tbl h kv hkv; exact h kv hkv
  | cons a L1 ih =>
      intro tbl h kv hkv
      exact ih _ (dictInsert_values v a tbl h) kv hkv

/-- dict assignment never leaves an empty table. -/
lemma dictInsert_ne_nil (k : Nat) (v : Option CB) (tbl : List (Nat × Option CB)) :
    dictInsert k v tbl ≠ [] := by
  rcases tbl with _ | ⟨⟨k1, v1⟩, rest⟩
  · simp [dictInsert]
  · simp only [dictInsert]
    split <;> simp

/-- Registering at least one handle leaves the table non-empty. -/
lemma foldl_dictInsert_ne_nil (v : Option CB) :
    ∀ (L : List Nat) (tbl : List (Nat × Option CB)), tbl ≠ [] →
      L.foldl (fun t sub => dictInsert sub v t) tbl ≠ [] := by
  intro L
  induction L with
  | nil => intro tbl h; exact h
  | cons a L1 ih => intro tbl h; exact ih _ (dictInsert_ne_nil a v tbl)

/-- dict assignment grows the table by at most one entry. -/
lemma dictInsert_length_le (k : Nat) (v : Option CB) :
    ∀ tbl : List (Nat × Option CB),
      (dictInsert k v tbl).length ≤ tbl.length + 1 := by
  intro tbl
  induction tbl with
  | nil => simp [dictInsert]
  | cons p rest ih =>
      rcases p with ⟨k1, v1⟩
      simp only [dictInsert]
      split
      · simp
      · simp only [List.length_cons]
        omega

/-- Registering the handles of `L` grows the table by at most `|L|`. -/
lemma foldl_dictInsert_length (v : Option CB) :
    ∀ (L : List Nat) (tbl : List (Nat × Option CB)),
      (L.foldl (fun t sub => dictInsert sub v t) tbl).length
        ≤ tbl.length + L.length := by
  intro L
  induction L with
  | nil => intro tbl; simp
  | cons a L1 ih =>
      intro tbl
      calc (L1.foldl (fun t sub => dictInsert sub v t) (dictInsert a v tbl)).length
          ≤ (dictInsert a v tbl).length + L1.length := ih _
        _ ≤ tbl.length + 1 + L1.length := by
            have := dictInsert_length_le a v tbl
            omega
        _ = tbl.length + (a :: L1).length := by simp; omega

/-- Draining a loop whose only content is a pending table in which every
entry carries the same multi-rpc guard callback, while the grouped rpc is
observed FINISHING: the guarded callback body runs exactly once if the
`__done` flag is still clear, and never if it is already set. -/
lemma drain_rpcs (o : Oracle) (hv : ValidOracle o) (m cid : Nat) :
    ∀ (n : Nat) (T : List (Nat × Option CB)) (s : Loop) (f : Nat),
      T.length ≤ n →
      s.current = [] → s.idlers = [] → s.queue = [] → s.rpcs = T →
      (∀ kv ∈ T, kv.2 = some (.guard m (.plain cid))) →
      stateOf s m = .finishing →
      T.length + 1 ≤ f →
      ∃ sf, runFuel o f s = ⟨.ok true, sf⟩
        ∧ sf.trace = s.trace
            ++ (if T = [] ∨ m ∈ s.doneFlags then [] else [cid])
        ∧ sf.rpcs = [] := by
  intro n
  induction n with
  | zero =>
      intro T s f hn hc hi hq hr hT hst hf
      have hTnil : T = [] := List.length_eq_zero.mp (Nat.le_zero.mp hn)
      subst hTnil
      obtain ⟨now1, cur, idl, ina, qu, rp, stts, df, tr⟩ := s
      dsimp only at hc hi hq hr ⊢
      subst hc; subst hi; subst hq; subst hr
      rcases f with _ | f1
      · omega
      · have h0 : run0 o ⟨now1, [], [], ina, [], [], stts, df, tr⟩
            = ⟨.ok none, ⟨now1, [], [], ina, [], [], stts, df, tr⟩⟩ := by
          simp only [run0]
          rw [run_idle_not_runnable _ (Or.inl rfl)]
          rfl
        have h1 : run1 o ⟨now1, [], [], ina, [], [], stts, df, tr⟩
            = ⟨.ok false, ⟨now1, [], [], ina, [], [], stts, df, tr⟩⟩ := by
          simp only [run1, h0]
        refine ⟨⟨now1, [], [], ina, [], [], stts, df, tr⟩, ?_, by simp, rfl⟩
        simp only [runFuel, h1]
  | succ n1 ih =>
      intro T s f hn hc hi hq hr hT hst hf
      rcases hTc : T with _ | ⟨p, rest⟩
      · subst hTc
        obtain ⟨now1, cur, idl, ina, qu, rp, stts, df, tr⟩ := s
        dsimp only at hc hi hq hr ⊢
        subst hc; subst hi; subst hq; subst hr
        rcases f with _ | f1
        · omega
        · have h0 : run0 o ⟨now1, [], [], ina, [], [], stts, df, tr⟩
              = ⟨.ok none, ⟨now1, [], [], ina, [], [], stts, df, tr⟩⟩ := by
            simp only [run0]
            rw [run_idle_not_runnable _ (Or.inl rfl)]
            rfl
          have h1 : run1 o ⟨now1, [], [], ina, [], [], stts, df, tr⟩
              = ⟨.ok false, ⟨now1, [], [], ina, [], [], stts, df, tr⟩⟩ := by
            simp only [run1, h0]
          refine ⟨⟨now1, [], [], ina, [], [], stts, df, tr⟩, ?_, by simp, rfl⟩
          simp only [runFuel, h1]
      · subst hTc
        obtain ⟨hh, ho, hsome⟩ := hv (p :: rest) (by simp)
        obtain ⟨cb, hlk⟩ := Option.isSome_iff_exists.mp hsome
        have hcb : cb = some (.guard m (.plain cid)) :=
          hT (hh, cb) (mem_of_lookup hh _ cb hlk)
        subst hcb
        obtain ⟨now1, cur, idl, ina, qu, rp, stts, df, tr⟩ := s
        dsimp only at hc hi hq hr hst ⊢
        subst hc; subst hi; subst hq; subst hr
        rcases f with _ | f1
        · simp only [List.length_cons] at hf
          omega
        · by_cases hm : m ∈ df
          · have h0 : run0 o ⟨now1, [], [], ina, [], p :: rest, stts, df, tr⟩
                = ⟨.ok (some 0), ⟨now1, [], [], 0, [],
                    eraseKey hh (p :: rest), stts, df, tr⟩⟩ := by
              simp only [run0]
              rw [run_idle_not_runnable _ (Or.inl rfl)]
              try dsimp only
              simp only [run0_rpcs]
              try dsimp only
              rw [ho]
              try dsimp only
              rw [hlk]
              try dsimp only
              simp only [invoke]
              rw [if_neg (fun hand => hand.2 hm)]
              rfl
            have h1 : run1 o ⟨now1, [], [], ina, [], p :: rest, stts, df, tr⟩
                = ⟨.ok true, ⟨now1, [], [], 0, [],
                    eraseKey hh (p :: rest), stts, df, tr⟩⟩ := by
              simp only [run1, h0]
              rw [if_neg (lt_irrefl 0)]
            obtain ⟨sf, hrun, htr, hrp⟩ := ih (eraseKey hh (p :: rest))
              ⟨now1, [], [], 0, [], eraseKey hh (p :: rest), stts, df, tr⟩ f1
              (by
                have := eraseKey_length hh (p :: rest) _ hlk
                simp only [List.length_cons] at this hn
                omega)
              rfl rfl rfl rfl
              (fun kv hkv => hT kv (eraseKey_subset hh _ kv hkv))
              hst
              (by
                have := eraseKey_length hh (p :: rest) _ hlk
                simp only [List.length_cons] at this hf
                omega)
            refine ⟨sf, ?_, ?_, hrp⟩
            · simp only [runFuel, h1]
              exact hrun
            · rw [htr]
              simp [hm]
          · have h0 : run0 o ⟨now1, [], [], ina, [], p :: rest, stts, df, tr⟩
                = ⟨.ok (some 0), ⟨now1, [], [], 0, [],
                    eraseKey hh (p :: rest), stts, m :: df, tr ++ [cid]⟩⟩ := by
              simp only [run0]
              rw [run_idle_not_runnable _ (Or.inl rfl)]
              try dsimp only
              simp only [run0_rpcs]
              try dsimp only
              rw [ho]
              try dsimp only
              rw [hlk]
              try dsimp only
              simp only [invoke]
              rw [if_pos ⟨hst, hm⟩]
              rfl
            have h1 : run1 o ⟨now1, [], [], ina, [], p :: rest, stts, df, tr⟩
                = ⟨.ok true, ⟨now1, [], [], 0, [],
                    eraseKey hh (p :: rest), stts, m :: df, tr ++ [cid]⟩⟩ := by
              simp only [run1, h0]
              rw [if_neg (lt_irrefl 0)]
            obtain ⟨sf, hrun, htr, hrp⟩ := ih (eraseKey hh (p :: rest))
              ⟨now1, [], [], 0, [], eraseKey hh (p :: rest), stts, m :: df, tr ++ [cid]⟩ f1
              (by
                have := eraseKey_length hh (p :: rest) _ hlk
                simp only [List.length_cons] at this hn
                omega)
              rfl rfl rfl rfl
              (fun kv hkv => hT kv (eraseKey_subset hh _ kv hkv))
              hst
              (by
                have := eraseKey_length hh (p :: rest) _ hlk
                simp only [List.length_cons] at this hf
                omega)
            refine ⟨sf, ?_, ?_, hrp⟩
            · simp only [runFuel, h1]
              exact hrun
            · rw [htr]
              simp [hm]

/-- The head-completing waiter respects the wait_any contract. -/
lemma headOracle_valid : ValidOracle headOracle := by
  intro tbl h
  rcases tbl with _ | ⟨⟨k, v⟩, rest⟩
  · exact absurd rfl h
  · exact ⟨k, rfl, by simp [List.lookup]⟩

/-- C6: registering a MultiRpc with more than one sub-rpc via queue_rpc
wraps the callback in the one-shot guard and registers it under every
sub-rpc handle; when all sub-rpcs then complete (with the composite
observed FINISHING and a contract-respecting waiter), draining the loop
fires the callback exactly once — the trace gains exactly one entry. -/
theorem C6_composite_fires_once (o : Oracle) (hv : ValidOracle o) (s : Loop)
    (m cid : Nat) (subs : List Nat)
    (hc : s.current = []) (hi : s.idlers = []) (hq : s.queue = [])
    (hr : s.rpcs = []) (hst : stateOf s m = .finishing)
    (hlen : 1 < subs.length) :
    ∃ s1 sf, queue_rpc s (some (.multi m subs)) (some (.plain cid)) = ⟨.ok (), s1⟩
      ∧ runFuel o (subs.length + 1) s1 = ⟨.ok true, sf⟩
      ∧ sf.trace = s.trace ++ [cid]
      ∧ sf.rpcs = [] := by
  obtain ⟨now1, cur, idl, ina, qu, rp, stts, df, tr⟩ := s
  dsimp only at hc hi hq hr hst ⊢
  subst hc; subst hi; subst hq; subst hr
  have hq1 : queue_rpc ⟨now1, [], [], ina, [], [], stts, df, tr⟩
      (some (.multi m subs)) (some (.plain cid))
      = ⟨.ok (), ⟨now1, [], [], ina, [],
          subs.foldl (fun t sub =>
            dictInsert sub (some (.guard m (.plain cid))) t) [],
          stts, df.filter (fun x => x != m), tr⟩⟩ := by
    simp only [queue_rpc, RpcArg.topId]
    rw [if_pos (Or.inr hst)]
    try dsimp only
    rw [if_pos hlen]
  rcases hsubs : subs with _ | ⟨a, subs1⟩
  · subst hsubs
    simp at hlen
  · have hTne : subs.foldl (fun t sub =>
        dictInsert sub (some (.guard m (.plain cid))) t) [] ≠ [] := by
      rw [hsubs]
      simp only [List.foldl_cons]
      exact foldl_dictInsert_ne_nil _ subs1 _ (dictInsert_ne_nil _ _ _)
    rw [← hsubs]
    obtain ⟨sf, hrun, htr, hrp⟩ := drain_rpcs o hv m cid
      (subs.foldl (fun t sub =>
        dictInsert sub (some (.guard m (.plain cid))) t) []).length
      (subs.foldl (fun t sub =>
        dictInsert sub (some (.guard m (.plain cid))) t) [])
      ⟨now1, [], [], ina, [],
        subs.foldl (fun t sub =>
          dictInsert sub (some (.guard m (.plain cid))) t) [],
        stts, df.filter (fun x => x != m), tr⟩
      (subs.length + 1)
      le_rfl rfl rfl rfl rfl
      (foldl_dictInsert_values _ subs [] (by simp))
      hst
      (by
        have := foldl_dictInsert_length
          (some (.guard m (.plain cid))) subs []
        simp only [List.length_nil] at this
        omega)
    refine ⟨_, sf, hq1, hrun, ?_, hrp⟩
    rw [htr]
    have hmf : m ∉ df.filter (fun x => x != m) := by
      simp [List.mem_filter]
    simp [hTne, hmf]

/-- C6 witness: a composite of two sub-rpcs, both completing while the
composite is FINISHING: the callback 9 runs exactly once. -/
theorem C6_composite_fires_once_witness :
    ∃ s1 sf, queue_rpc { emptyLoop 0 with states := [(3, .finishing)] }
        (some (.multi 3 [1, 2])) (some (.plain 9)) = ⟨.ok (), s1⟩
      ∧ runFuel headOracle ([1, 2].length + 1) s1 = ⟨.ok true, sf⟩
      ∧ sf.trace = ({ emptyLoop 0 with states := [(3, .finishing)] } : Loop).trace ++ [9]
      ∧ sf.rpcs = [] :=
  C6_composite_fires_once headOracle headOracle_valid
    { emptyLoop 0 with states := [(3, .finishing)] } 3 9 [1, 2]
    rfl rfl rfl rfl (by decide) (by decide)

/-! Case analysis of a single step, and termination of the drain loop. -/

/-- A `mapWork` result is never the drained signal. -/
lemma mapWork_res_ne_none (r : Outcome Unit) : (mapWork r).res ≠ .ok none := by
  rcases r with ⟨res, st⟩
  rcases res with e | u <;> simp [mapWork, Except.map]

/-- A `mapWork` result either reports one unit of work or an exception. -/
lemma mapWork_cases (r : Outcome Unit) :
    mapWork r = ⟨.ok (some 0), r.state⟩ ∨ ∃ e, mapWork r = ⟨.error e, r.state⟩ := by
  rcases r with ⟨res, st⟩
  rcases res with e | u
  · exact Or.inr ⟨e, rfl⟩
  · exact Or.inl rfl

/-- Exactly one of the six priority branches of `run0` applies. -/
lemma run0_cases (o : Oracle) (s : Loop) :
    (∃ c rest, s.current = c :: rest ∧
      run0 o s = mapWork (invoke c { s with inactive := 0, current := rest }))
  ∨ (s.current = [] ∧ (run_idle s).res ≠ .ok false ∧
      run0 o s = ⟨(run_idle s).res.map (fun _ => some 0), (run_idle s).state⟩)
  ∨ (∃ t c qrest, s.current = [] ∧ run_idle s = ⟨.ok false, s⟩ ∧
      s.queue = (t, c) :: qrest ∧ t - s.now ≤ 0 ∧
      run0 o s = mapWork (invoke c { s with inactive := 0, queue := qrest }))
  ∨ (s.current = [] ∧ run_idle s = ⟨.ok false, s⟩ ∧ s.rpcs ≠ [] ∧
      ∃ d, run0 o s = run0_rpcs o s d)
  ∨ (∃ t c qrest, s.current = [] ∧ run_idle s = ⟨.ok false, s⟩ ∧
      s.queue = (t, c) :: qrest ∧ 0 < t - s.now ∧ s.rpcs = [] ∧
      run0 o s = ⟨.ok (some (t - s.now)), s⟩)
  ∨ (s.current = [] ∧ run_idle s = ⟨.ok false, s⟩ ∧ s.queue = [] ∧ s.rpcs = [] ∧
      run0 o s = ⟨.ok none, s⟩) := by
  obtain ⟨now1, cur, idl, ina, qu, rp, stts, df, tr⟩ := s
  rcases cur with _ | ⟨c, rest⟩
  · rcases hri : run_idle ⟨now1, [], idl, ina, qu, rp, stts, df, tr⟩ with ⟨res, s1⟩
    rcases res with e | b
    · refine Or.inr (Or.inl ⟨rfl, by simp, ?_⟩)
      simp only [run0]
      rw [hri]
      rfl
    · cases b
      case true =>
        refine Or.inr (Or.inl ⟨rfl, by simp, ?_⟩)
        simp only [run0]
        rw [hri]
        rfl
      case false =>
        have hfix := run_idle_false ⟨now1, [], idl, ina, qu, rp, stts, df, tr⟩
          (by rw [hri])
        have hs1 : s1 = ⟨now1, [], idl, ina, qu, rp, stts, df, tr⟩ :=
          congrArg Outcome.state (hfix.1.symm.trans hri).symm
        subst hs1
        rcases qu with _ | ⟨⟨t, c⟩, qrest⟩
        · rcases rp with _ | ⟨p, rrest⟩
          · refine Or.inr (Or.inr (Or.inr (Or.inr (Or.inr
              ⟨rfl, rfl, rfl, rfl, ?_⟩))))
            simp only [run0]
            rw [hri]
            try rfl
          · refine Or.inr (Or.inr (Or.inr (Or.inl
              ⟨rfl, rfl, by simp, none, ?_⟩)))
            simp only [run0]
            rw [hri]
            try rfl
        · by_cases hdue : t - now1 ≤ 0
          · refine Or.inr (Or.inr (Or.inl ⟨t, c, qrest, rfl, rfl, rfl, hdue, ?_⟩))
            simp only [run0]
            rw [hri]
            try dsimp only
            rw [if_pos hdue]
          · rcases rp with _ | ⟨p, rrest⟩
            · refine Or.inr (Or.inr (Or.inr (Or.inr (Or.inl
                ⟨t, c, qrest, rfl, rfl, rfl, not_le.mp hdue, rfl, ?_⟩))))
              simp only [run0]
              rw [hri]
              try dsimp only
              rw [if_neg hdue]
              try rfl
            · refine Or.inr (Or.inr (Or.inr (Or.inl
                ⟨rfl, rfl, by simp, some (t - now1), ?_⟩)))
              simp only [run0]
              rw [hri]
              try dsimp only
              rw [if_neg hdue]
  · exact Or.inl ⟨c, rest, rfl, rfl⟩

/-- When `run0` reports fully drained, the immediate queue, timer queue and
pending table are empty, no idle callback was runnable, and nothing
changed. -/
lemma run0_none_exit (o : Oracle) (s s1 : Loop)
    (h : run0 o s = ⟨.ok none, s1⟩) :
    s.current = [] ∧ s.queue = [] ∧ s.rpcs = [] ∧
      (s.idlers = [] ∨ s.idlers.length ≤ s.inactive) ∧ s1 = s := by
  rcases run0_cases o s with
    ⟨c, rest, hcur, heq⟩ | ⟨hcur, hne, heq⟩ |
    ⟨t, c, qrest, hcur, hidle, hq, hdue, heq⟩ |
    ⟨hcur, hidle, hrp, d, heq⟩ |
    ⟨t, c, qrest, hcur, hidle, hq, hpos, hrp, heq⟩ |
    ⟨hcur, hidle, hq, hrp, heq⟩
  · rw [heq] at h
    exact absurd (congrArg Outcome.res h) (mapWork_res_ne_none _)
  · rw [heq] at h
    have hres := congrArg Outcome.res h
    rcases hx : (run_idle s).res with e | b <;> rw [hx] at hres <;>
      simp [Except.map] at hres
  · rw [heq] at h
    exact absurd (congrArg Outcome.res h) (mapWork_res_ne_none _)
  · exfalso
    rw [heq] at h
    rcases hrpc : s.rpcs with _ | ⟨p, rest⟩
    · exact hrp hrpc
    · simp only [run0_rpcs, hrpc] at h
      rcases ho : o (p :: rest) with _ | hh
      · simp only [ho] at h
        simpa using congrArg Outcome.res h
      · simp only [ho] at h
        rcases hlk : (p :: rest).lookup hh with _ | cb
        · simp only [hlk] at h
          simpa using congrArg Outcome.res h
        · simp only [hlk] at h
          rcases cb with _ | cc
          · simpa using congrArg Outcome.res h
          · exact absurd (congrArg Outcome.res h) (mapWork_res_ne_none _)
  · rw [heq] at h
    simpa using congrArg Outcome.res h
  · refine ⟨hcur, hq, hrp, (run_idle_false s (by rw [hidle])).2, ?_⟩
    rw [heq] at h
    exact (congrArg Outcome.state h).symm

/-- Invoking a callback does not change the termination measure. -/
lemma invoke_loopSize (c : CB) (s : Loop) :
    loopSize (invoke c s).state = loopSize s := by
  obtain ⟨h1, h2, _, h4, h5, _, _⟩ := invoke_frame c s
  simp [loopSize, h1, h2, h4, h5]

/-- The possible outcomes of one `run_idle` call. -/
lemma run_idle_cases (s : Loop) :
    (run_idle s = ⟨.ok false, s⟩ ∧ (s.idlers = [] ∨ s.idlers.length ≤ s.inactive))
  ∨ (∃ it rest, s.idlers = it :: rest ∧ s.inactive < s.idlers.length ∧
      ((it.script = [] ∧ run_idle s
          = ⟨.ok true, { s with idlers := rest, trace := s.trace ++ [it.id] }⟩)
       ∨ (∃ tl, it.script = .remove :: tl ∧ run_idle s
          = ⟨.ok true, { s with idlers := rest, trace := s.trace ++ [it.id] }⟩)
       ∨ (∃ tl, it.script = .noWork :: tl ∧ run_idle s
          = ⟨.ok true, { s with
              idlers := rest ++ [⟨it.id, tl⟩],
              inactive := s.inactive + 1,
              trace := s.trace ++ [it.id] }⟩)
       ∨ (∃ tl, it.script = .didWork :: tl ∧ run_idle s
          = ⟨.ok true, { s with
              idlers := rest ++ [⟨it.id, tl⟩],
              inactive := 0,
              trace := s.trace ++ [it.id] }⟩)
       ∨ (∃ tl, it.script = .raise :: tl ∧ run_idle s
          = ⟨.error .callbackExc,
              { s with idlers := rest, trace := s.trace ++ [it.id] }⟩))) := by
  by_cases hcond : s.idlers = [] ∨ s.idlers.length ≤ s.inactive
  · exact Or.inl ⟨run_idle_not_runnable s hcond, hcond⟩
  · right
    push_neg at hcond
    obtain ⟨hne, hlt⟩ := hcond
    obtain ⟨now1, cur, idl, ina, qu, rp, stts, df, tr⟩ := s
    dsimp only at hne hlt ⊢
    rcases idl with _ | ⟨it, rest⟩
    · exact absurd rfl hne
    · obtain ⟨pid, ps⟩ := it
      refine ⟨⟨pid, ps⟩, rest, rfl, hlt, ?_⟩
      have hifneg : ¬((⟨pid, ps⟩ :: rest : List IdleItem) = []
          ∨ (⟨pid, ps⟩ :: rest : List IdleItem).length ≤ ina) :=
        not_or.mpr ⟨by simp, not_le.mpr hlt⟩
      rcases ps with _ | ⟨b, tl⟩
      · refine Or.inl ⟨rfl, ?_⟩
        unfold run_idle
        rw [if_neg hifneg]
      · cases b
        · refine Or.inr (Or.inl ⟨tl, rfl, ?_⟩)
          unfold run_idle
          rw [if_neg hifneg]
        · refine Or.inr (Or.inr (Or.inl ⟨tl, rfl, ?_⟩))
          unfold run_idle
          rw [if_neg hifneg]
        · refine Or.inr (Or.inr (Or.inr (Or.inl ⟨tl, rfl, ?_⟩)))
          unfold run_idle
          rw [if_neg hifneg]
        · refine Or.inr (Or.inr (Or.inr (Or.inr ⟨tl, rfl, ?_⟩)))
          unfold run_idle
          rw [if_neg hifneg]

/-- A successful idle step strictly decreases the measure and leaves the
other three structures alone. -/
lemma run_idle_true_size (s : Loop) (h : (run_idle s).res = .ok true) :
    loopSize (run_idle s).state < loopSize s ∧
      (run_idle s).state.current = s.current ∧
      (run_idle s).state.queue = s.queue ∧
      (run_idle s).state.rpcs = s.rpcs := by
  rcases run_idle_cases s with ⟨heq, _⟩ | ⟨it, rest, hid, hlt, hcase⟩
  · rw [heq] at h
    simp at h
  · rcases hcase with ⟨hs, heq⟩ | ⟨tl, hs, heq⟩ | ⟨tl, hs, heq⟩ |
      ⟨tl, hs, heq⟩ | ⟨tl, hs, heq⟩
    · rw [heq]
      refine ⟨?_, rfl, rfl, rfl⟩
      simp [loopSize, hid, idlerWeight]
    · rw [heq]
      refine ⟨?_, rfl, rfl, rfl⟩
      simp [loopSize, hid, idlerWeight]
    · rw [heq]
      refine ⟨?_, rfl, rfl, rfl⟩
      simp [loopSize, hid, idlerWeight, hs]
      omega
    · rw [heq]
      refine ⟨?_, rfl, rfl, rfl⟩
      simp [loopSize, hid, idlerWeight, hs]
      omega
    · rw [heq] at h
      simp at h

/-- A non-sleeping step of the loop while it keeps running. -/
lemma run1_cases (o : Oracle) (s s1 : Loop) (h : run1 o s = ⟨.ok true, s1⟩) :
    (∃ d, run0 o s = ⟨.ok (some d), s1⟩ ∧ ¬ 0 < d)
  ∨ (∃ d s0, run0 o s = ⟨.ok (some d), s0⟩ ∧ 0 < d ∧
      s1 = { s0 with now := s0.now + d }) := by
  rcases h0 : run0 o s with ⟨res, s0⟩
  simp only [run1, h0] at h
  rcases res with e | v
  · simp at h
  · rcases v with _ | d
    · simp at h
    · dsimp only at h
      by_cases hd : (0 : Time) < d
      · rw [if_pos hd] at h
        exact Or.inr ⟨d, s0, rfl, hd, (congrArg Outcome.state h).symm⟩
      · rw [if_neg hd] at h
        have h2 : s0 = s1 := congrArg Outcome.state h
        exact Or.inl ⟨d, by rw [h2], hd⟩

/-- The state after the `sleep` branch of run1: nothing was runnable except
a not-yet-due timer, and the clock advanced to its deadline. -/
def SleepStep (s s1 : Loop) : Prop :=
  s.current = [] ∧ (s.idlers = [] ∨ s.idlers.length ≤ s.inactive) ∧
    s.rpcs = [] ∧
    ∃ t c qrest, s.queue = (t, c) :: qrest ∧ 0 < t - s.now ∧
      s1 = { s with now := s.now + (t - s.now) }

/-- With a contract-respecting waiter, every continuing step of the loop
either strictly decreases the measure or is a sleep step. -/
lemma run1_size (o : Oracle) (hv : ValidOracle o) (s s1 : Loop)
    (h : run1 o s = ⟨.ok true, s1⟩) :
    loopSize s1 < loopSize s ∨ SleepStep s s1 := by
  rcases run0_cases o s with
    ⟨c, rest, hcur, heq⟩ | ⟨hcur, hne, heq⟩ |
    ⟨t, c, qrest, hcur, hidle, hq, hdue, heq⟩ |
    ⟨hcur, hidle, hrp, d2, heq⟩ |
    ⟨t, c, qrest, hcur, hidle, hq, hpos, hrp, heq⟩ |
    ⟨hcur, hidle, hq, hrp, heq⟩
  · -- immediate callback: size drops by one
    left
    rcases run1_cases o s s1 h with ⟨d, h0, hd⟩ | ⟨d, s0, h0, hd, hs1⟩
    · rw [heq] at h0
      rcases mapWork_cases (invoke c { s with inactive := 0, current := rest }) with
        hm | ⟨e, hm⟩ <;> rw [hm] at h0
      · have hs1 : s1 = (invoke c { s with inactive := 0, current := rest }).state :=
          (congrArg Outcome.state h0).symm
        rw [hs1, invoke_loopSize]
        simp only [loopSize, hcur, List.length_cons]
        omega
      · simp at h0
    · rw [heq] at h0
      rcases mapWork_cases (invoke c { s with inactive := 0, current := rest }) with
        hm | ⟨e, hm⟩ <;> rw [hm] at h0
      · obtain rfl : (0 : Time) = d := by simpa using congrArg Outcome.res h0
        exact absurd hd (lt_irrefl 0)
      · simp at h0
  · -- idle step
    left
    rcases hx : (run_idle s).res with e | b
    · rw [hx] at heq
      simp [run1, heq, Except.map] at h
    · rcases b with _ | _
      · exact absurd hx hne
      · have hsz := run_idle_true_size s hx
        rcases run1_cases o s s1 h with ⟨d, h0, hd⟩ | ⟨d, s0, h0, hd, hs1⟩
        · rw [heq, hx] at h0
          have hs1 : s1 = (run_idle s).state := by
            simpa [Except.map] using (congrArg Outcome.state h0).symm
          rw [hs1]
          exact hsz.1
        · rw [heq, hx] at h0
          obtain rfl : (0 : Time) = d := by
            simpa [Except.map] using congrArg Outcome.res h0
          exact absurd hd (lt_irrefl 0)
  · -- due timer: size drops by two
    left
    rcases run1_cases o s s1 h with ⟨d, h0, hd⟩ | ⟨d, s0, h0, hd, hs1⟩
    · rw [heq] at h0
      rcases mapWork_cases (invoke c { s with inactive := 0, queue := qrest }) with
        hm | ⟨e, hm⟩ <;> rw [hm] at h0
      · have hs1 : s1 = (invoke c { s with inactive := 0, queue := qrest }).state :=
          (congrArg Outcome.state h0).symm
        rw [hs1, invoke_loopSize]
        simp only [loopSize, hq, List.length_cons]
        omega
      · simp at h0
    · rw [heq] at h0
      rcases mapWork_cases (invoke c { s with inactive := 0, queue := qrest }) with
        hm | ⟨e, hm⟩ <;> rw [hm] at h0
      · obtain rfl : (0 : Time) = d := by simpa using congrArg Outcome.res h0
        exact absurd hd (lt_irrefl 0)
      · simp at h0
  · -- rpc wait: the table loses the completed entry
    left
    rcases hrpc : s.rpcs with _ | ⟨p, rest⟩
    · exact absurd hrpc hrp
    · obtain ⟨hh, ho, hsome⟩ := hv (p :: rest) (by simp)
      obtain ⟨cb, hlk⟩ := Option.isSome_iff_exists.mp hsome
      have herase := eraseKey_length hh (p :: rest) cb hlk
      have hsz2 : loopSize { s with inactive := 0, rpcs := eraseKey hh (p :: rest) } < loopSize s := by
        simp only [List.length_cons] at herase
        simp only [loopSize, hrpc, List.length_cons]
        omega
      rcases cb with _ | cc
      · have hro : run0_rpcs o s d2
            = ⟨.ok (some 0), { s with inactive := 0, rpcs := eraseKey hh (p :: rest) }⟩ := by
          simp only [run0_rpcs, hrpc, ho, hlk]
          try rfl
        rcases run1_cases o s s1 h with ⟨d, h0, hd⟩ | ⟨d, s0, h0, hd, hs1⟩
        · rw [heq, hro] at h0
          have hs1 : s1 = { s with inactive := 0, rpcs := eraseKey hh (p :: rest) } :=
            (congrArg Outcome.state h0).symm
          rw [hs1]
          exact hsz2
        · rw [heq, hro] at h0
          obtain rfl : (0 : Time) = d := by simpa using congrArg Outcome.res h0
          exact absurd hd (lt_irrefl 0)
      · have hro : run0_rpcs o s d2
            = mapWork (invoke cc { s with inactive := 0, rpcs := eraseKey hh (p :: rest) }) := by
          simp only [run0_rpcs, hrpc, ho, hlk]
          try rfl
        rcases run1_cases o s s1 h with ⟨d, h0, hd⟩ | ⟨d, s0, h0, hd, hs1⟩
        · rw [heq, hro] at h0
          rcases mapWork_cases (invoke cc { s with inactive := 0, rpcs := eraseKey hh (p :: rest) }) with hm | ⟨e, hm⟩ <;>
            rw [hm] at h0
          · have hs1 : s1 = (invoke cc { s with inactive := 0, rpcs := eraseKey hh (p :: rest) }).state :=
              (congrArg Outcome.state h0).symm
            rw [hs1, invoke_loopSize]
            exact hsz2
          · simp at h0
        · rw [heq, hro] at h0
          rcases mapWork_cases (invoke cc { s with inactive := 0, rpcs := eraseKey hh (p :: rest) }) with hm | ⟨e, hm⟩ <;>
            rw [hm] at h0
          · obtain rfl : (0 : Time) = d := by simpa using congrArg Outcome.res h0
            exact absurd hd (lt_irrefl 0)
          · simp at h0
  · -- not-yet-due timer with nothing else: sleep step
    right
    rcases run1_cases o s s1 h with ⟨d, h0, hd⟩ | ⟨d, s0, h0, hd, hs1⟩
    · rw [heq] at h0
      obtain rfl : t - s.now = d := by simpa using congrArg Outcome.res h0
      exact absurd hpos hd
    · rw [heq] at h0
      obtain rfl : t - s.now = d := by simpa using congrArg Outcome.res h0
      have hs0 : s0 = s := (congrArg Outcome.state h0).symm
      refine ⟨hcur, (run_idle_false s (by rw [hidle])).2, hrp,
        t, c, qrest, hq, hpos, ?_⟩
      rw [hs1, hs0]
  · -- drained: contradicts a continuing step
    rcases run1_cases o s s1 h with ⟨d, h0, hd⟩ | ⟨d, s0, h0, hd, hs1⟩ <;>
      rw [heq] at h0 <;> simpa using congrArg Outcome.res h0

/-- A sleep step leaves the measure unchanged. -/
lemma sleepStep_size (s s1 : Loop) (h : SleepStep s s1) :
    loopSize s1 = loopSize s := by
  obtain ⟨_, _, _, t, c, qrest, _, _, hs1⟩ := h
  rw [hs1]
  simp [loopSize]

/-- After a sleep step the slept-for timer is due, so the next step either
raises (if the timer callback does) or strictly decreases the measure. -/
lemma sleep_then_pop (o : Oracle) (s s1 : Loop) (hss : SleepStep s s1) :
    (∃ e s2, run1 o s1 = ⟨.error e, s2⟩)
  ∨ (∃ s2, run1 o s1 = ⟨.ok true, s2⟩ ∧ loopSize s2 < loopSize s1) := by
  obtain ⟨hc, hni, hr, t, c, qrest, hq, hpos, hs1⟩ := hss
  obtain ⟨now1, cur, idl, ina, qu, rp, stts, df, tr⟩ := s
  dsimp only at hc hni hr hq hpos hs1
  subst hc; subst hr; subst hq; subst hs1
  have hdue : t - (now1 + (t - now1)) ≤ 0 := le_of_eq (by ring)
  have h0 : run0 o ⟨now1 + (t - now1), [], idl, ina, (t, c) :: qrest, [], stts, df, tr⟩
      = mapWork (invoke c
          ⟨now1 + (t - now1), [], idl, 0, qrest, [], stts, df, tr⟩) := by
    simp only [run0]
    rw [run_idle_not_runnable _ hni]
    try dsimp only
    rw [if_pos hdue]
  rcases hinv : invoke c ⟨now1 + (t - now1), [], idl, 0, qrest, [], stts, df, tr⟩ with
    ⟨ires, ist⟩
  have hsz : loopSize ist
      < loopSize (⟨now1 + (t - now1), [], idl, ina, (t, c) :: qrest, [], stts, df, tr⟩ : Loop) := by
    have := invoke_loopSize c ⟨now1 + (t - now1), [], idl, 0, qrest, [], stts, df, tr⟩
    rw [hinv] at this
    dsimp only at this
    rw [this]
    simp [loopSize]
  rcases ires with e | u
  · refine Or.inl ⟨e, ist, ?_⟩
    simp only [run1, h0, mapWork, hinv, Except.map]
  · refine Or.inr ⟨ist, ?_, hsz⟩
    simp only [run1, h0, mapWork, hinv, Except.map]
    try dsimp only
    rw [if_neg (lt_irrefl 0)]

/-- With a contract-respecting waiter the drain loop always terminates:
some finite fuel makes runFuel exit on its own (or an exception from a
callback propagates out). -/
lemma run_terminates (o : Oracle) (hv : ValidOracle o) :
    ∀ (n : Nat) (s : Loop), loopSize s ≤ n →
      ∃ k sf, runFuel o k s = ⟨.ok true, sf⟩
        ∨ ∃ e, runFuel o k s = ⟨.error e, sf⟩ := by
  intro n
  induction n with
  | zero =>
      intro s hs
      rcases h1 : run1 o s with ⟨res, s1⟩
      rcases res with e | b
      · exact ⟨1, s1, Or.inr ⟨e, by simp [runFuel, h1]⟩⟩
      · rcases b with _ | _
        · exact ⟨1, s1, Or.inl (by simp [runFuel, h1])⟩
        · exfalso
          rcases run1_size o hv s s1 h1 with hlt | hsleep
          · omega
          · obtain ⟨_, _, _, t, c, qrest, hq, _, _⟩ := hsleep
            have : 1 ≤ loopSize s := by
              simp only [loopSize, hq, List.length_cons]
              omega
            omega
  | succ n1 ih =>
      intro s hs
      rcases h1 : run1 o s with ⟨res, s1⟩
      rcases res with e | b
      · exact ⟨1, s1, Or.inr ⟨e, by simp [runFuel, h1]⟩⟩
      · rcases b with _ | _
        · exact ⟨1, s1, Or.inl (by simp [runFuel, h1])⟩
        · rcases run1_size o hv s s1 h1 with hlt | hsleep
          · obtain ⟨k, sf, hk⟩ := ih s1 (by omega)
            refine ⟨k + 1, sf, ?_⟩
            simp only [runFuel, h1]
            exact hk
          · rcases sleep_then_pop o s s1 hsleep with ⟨e, s2, h2⟩ | ⟨s2, h2, hlt2⟩
            · exact ⟨2, s2, Or.inr ⟨e, by simp [runFuel, h1, h2]⟩⟩
            · have heqs : loopSize s1 = loopSize s := sleepStep_size s s1 hsleep
              obtain ⟨k, sf, hk⟩ := ih s2 (by omega)
              refine ⟨k + 2, sf, ?_⟩
              simp only [runFuel, h1, h2]
              exact hk

/-- C2, amended: with a waiter that respects the wait_any contract the
drain loop always terminates (all queues in the model are finite and no
modelled callback re-enqueues work, so the claim's finiteness proviso is
automatic); and the loop never exits while the immediate queue, timer
queue or pending table is non-empty, nor while an idle callback is
runnable — but exiting with backed-off idle items still registered is
possible. -/
theorem C2_drain_termination (o : Oracle) (hv : ValidOracle o) :
    (∀ s : Loop, ∃ k sf, runFuel o k s = ⟨.ok true, sf⟩
      ∨ ∃ e, runFuel o k s = ⟨.error e, sf⟩)
  ∧ (∀ s s1 : Loop, run0 o s = ⟨.ok none, s1⟩ →
      s.current = [] ∧ s.queue = [] ∧ s.rpcs = [] ∧
        (s.idlers = [] ∨ s.idlers.length ≤ s.inactive) ∧ s1 = s) :=
  ⟨fun s => run_terminates o hv (loopSize s) s le_rfl,
   fun s s1 h => run0_none_exit o s s1 h⟩

/-- C2 witness: the drain terminates from a loop with one immediate
callback, one idler and one timer under the head-completing waiter. -/
theorem C2_drain_termination_witness :
    ∃ k sf, runFuel headOracle k
        { emptyLoop 1 with
            current := [.plain 5],
            queue := [(3, .plain 6)],
            idlers := [⟨7, [.noWork]⟩] } = ⟨.ok true, sf⟩
      ∨ ∃ e, runFuel headOracle k
        { emptyLoop 1 with
            current := [.plain 5],
            queue := [(3, .plain 6)],
            idlers := [⟨7, [.noWork]⟩] } = ⟨.error e, sf⟩ :=
  (C2_drain_termination headOracle headOracle_valid).1
    { emptyLoop 1 with
        current := [.plain 5],
        queue := [(3, .plain 6)],
        idlers := [⟨7, [.noWork]⟩] }

/-- C2 counterexample to the claim as stated: with a single idle item that
reports no work, the drain loop terminates (run1 reports no more work)
while the idler queue is still non-empty — so run does terminate with one
of the four structures non-empty. -/
theorem C2_terminates_with_idlers_counterexample :
    (run headOracle 2 { emptyLoop 0 with idlers := [⟨5, [.noWork]⟩] }).res
        = .ok true
  ∧ (run headOracle 2 { emptyLoop 0 with idlers := [⟨5, [.noWork]⟩] }).state.idlers
        = [⟨5, []⟩] :=
  ⟨by decide, by decide⟩

/-! Correctness of the binary-search insertion and the timer ordering. -/

/-- In a sorted queue, deadlines are monotone in the index. -/
lemma sortedQ_mono (q : List (Time × CB)) (hs : SortedQ q) (i j : Nat)
    (hi : i < q.length) (hj : j < q.length) (hij : i ≤ j) :
    (q.get ⟨i, hi⟩).1 ≤ (q.get ⟨j, hj⟩).1 := by
  rcases Nat.lt_or_ge i j with hlt | hge
  · exact List.pairwise_iff_get.mp hs ⟨i, hi⟩ ⟨j, hj⟩ hlt
  · have : i = j := le_antisymm hij hge
    subst this
    exact le_rfl

/-- The binary-search loop returns the boundary between the prefix of
deadlines `≤ t` and the suffix of deadlines `> t` (on a sorted queue,
within an interval already known to bracket the boundary). -/
lemma bisectLoop_spec (t : Time) (q : List (Time × CB)) (hs : SortedQ q) :
    ∀ (fuel lo hi : Nat), hi - lo ≤ fuel → lo ≤ hi → hi ≤ q.length →
      (∀ i (h : i < q.length), i < lo → (q.get ⟨i, h⟩).1 ≤ t) →
      (∀ i (h : i < q.length), hi ≤ i → t < (q.get ⟨i, h⟩).1) →
      lo ≤ bisectLoop t q fuel lo hi ∧ bisectLoop t q fuel lo hi ≤ hi ∧
      (∀ i (h : i < q.length), i < bisectLoop t q fuel lo hi →
        (q.get ⟨i, h⟩).1 ≤ t) ∧
      (∀ i (h : i < q.length), bisectLoop t q fuel lo hi ≤ i →
        t < (q.get ⟨i, h⟩).1) := by
  intro fuel
  induction fuel with
  | zero =>
      intro lo hi hfuel hlohi hhi hpre hsuf
      have : lo = hi := by omega
      subst this
      exact ⟨le_rfl, le_rfl, hpre, hsuf⟩
  | succ f1 ih =>
      intro lo hi hfuel hlohi hhi hpre hsuf
      simp only [bisectLoop]
      by_cases hlt : lo < hi
      · rw [if_pos hlt]
        have hmid : (lo + hi) / 2 < q.length := by omega
        rw [List.getD_eq_get q (0, .plain 0) hmid]
        by_cases hkey : t < (q.get ⟨(lo + hi) / 2, hmid⟩).1
        · rw [if_pos hkey]
          exact
            have h2 := ih lo ((lo + hi) / 2) (by omega) (by omega) (by omega)
              hpre
              (fun i h hge =>
                lt_of_lt_of_le hkey (sortedQ_mono q hs _ i hmid h hge))
            ⟨h2.1, le_trans h2.2.1 (by omega), h2.2.2.1, h2.2.2.2⟩
        · rw [if_neg hkey]
          exact
            have h2 := ih ((lo + hi) / 2 + 1) hi (by omega) (by omega) hhi
              (fun i h hlt2 =>
                le_trans (sortedQ_mono q hs i _ h hmid (by omega))
                  (not_lt.mp hkey))
              hsuf
            ⟨le_trans (by omega) h2.1, h2.2.1, h2.2.2.1, h2.2.2.2⟩
      · rw [if_neg hlt]
        have : lo = hi := by omega
        subst this
        exact ⟨le_rfl, le_rfl, hpre, hsuf⟩

/-- A pointwise-characterized boundary turns takeWhile/dropWhile into
take/drop. -/
lemma takeWhile_eq_take_of (P : (Time × CB) → Bool) :
    ∀ (l : List (Time × CB)) (r : Nat), r ≤ l.length →
      (∀ i (h : i < l.length), i < r → P (l.get ⟨i, h⟩) = true) →
      (∀ i (h : i < l.length), r ≤ i → ¬ P (l.get ⟨i, h⟩) = true) →
      l.takeWhile P = l.take r ∧ l.dropWhile P = l.drop r := by
  intro l
  induction l with
  | nil => intro r _ _ _; simp
  | cons a l1 ih =>
      intro r hr hpre hsuf
      rcases r with _ | r1
      · have ha : ¬ P a = true := hsuf 0 (by simp) (by omega)
        simp [List.takeWhile_cons, List.dropWhile_cons, ha]
      · have ha : P a = true := hpre 0 (by simp) (by omega)
        have htail := ih r1 (by simpa using hr)
          (fun i h hlt => hpre (i + 1) (by simpa using h) (by omega))
          (fun i h hge => hsuf (i + 1) (by simpa using h) (by omega))
        simp [List.takeWhile_cons, List.dropWhile_cons, ha, htail.1, htail.2]

/-- On a sorted queue, `insort_event_right` inserts the event exactly to
the right of every event with an equal or smaller deadline. -/
lemma insort_sorted_eq (e : Time × CB) (q : List (Time × CB)) (hs : SortedQ q) :
    insort_event_right e q
      = q.takeWhile (fun x => decide (x.1 ≤ e.1))
          ++ e :: q.dropWhile (fun x => decide (x.1 ≤ e.1)) := by
  obtain ⟨h1, h2, h3, h4⟩ := bisectLoop_spec e.1 q hs (q.length - 0) 0 q.length
    le_rfl (Nat.zero_le _) le_rfl
    (fun i h hlt => absurd hlt (Nat.not_lt_zero i))
    (fun i h hge => absurd h (not_lt.mpr hge))
  obtain ⟨ht, hd⟩ := takeWhile_eq_take_of (fun x => decide (x.1 ≤ e.1)) q
    (bisectLoop e.1 q (q.length - 0) 0 q.length) h2
    (fun i h hlt => decide_eq_true (h3 i h hlt))
    (fun i h hge => by
      simp only [decide_eq_true_eq]
      exact not_le.mpr (h4 i h hge))
  rw [insort_event_right, bisect_right_queue, ht, hd]

/-- The first element surviving dropWhile fails the predicate. -/
lemma dropWhile_head_not (P : (Time × CB) → Bool) :
    ∀ (l : List (Time × CB)) (y : Time × CB) (ys : List (Time × CB)),
      l.dropWhile P = y :: ys → P y = false := by
  intro l
  induction l with
  | nil => intro y ys h; simp at h
  | cons a l1 ih =>
      intro y ys h
      rw [List.dropWhile_cons] at h
      by_cases ha : P a = true
      · rw [if_pos ha] at h
        exact ih y ys h
      · rw [if_neg ha] at h
        rcases h with ⟨rfl, rfl⟩
        simpa using ha

/-- The insertion keeps the timer queue sorted. -/
lemma insort_sorted (e : Time × CB) (q : List (Time × CB)) (hs : SortedQ q) :
    SortedQ (insort_event_right e q) := by
  rw [insort_sorted_eq e q hs]
  have hdropLe : ∀ b ∈ q.dropWhile (fun x => decide (x.1 ≤ e.1)), e.1 ≤ b.1 := by
    intro b hb
    rcases hdw : q.dropWhile (fun x => decide (x.1 ≤ e.1)) with _ | ⟨y, ys⟩
    · rw [hdw] at hb
      simp at hb
    · rw [hdw] at hb
      have hy : e.1 < y.1 :=
        not_le.mp (by simpa using dropWhile_head_not _ q y ys hdw)
      have hys : List.Pairwise (fun a b : Time × CB => a.1 ≤ b.1) (y :: ys) := by
        rw [← hdw]
        exact List.Pairwise.sublist (List.dropWhile_sublist _) hs
      rcases List.mem_cons.mp hb with rfl | hb
      · exact le_of_lt hy
      · exact le_of_lt (lt_of_lt_of_le hy ((List.pairwise_cons.mp hys).1 b hb))
  unfold SortedQ
  rw [List.pairwise_append]
  refine ⟨List.Pairwise.sublist (List.takeWhile_sublist _) hs, ?_, ?_⟩
  · rw [List.pairwise_cons]
    exact ⟨hdropLe, List.Pairwise.sublist (List.dropWhile_sublist _) hs⟩
  · intro a ha b hb
    have haLe : a.1 ≤ e.1 := by simpa using List.mem_takeWhile_imp ha
    rcases List.mem_cons.mp hb with rfl | hb
    · exact haLe
    · exact le_trans haLe (hdropLe b hb)

/-- The insertion only adds the new event. -/
lemma insort_perm (e : Time × CB) (q : List (Time × CB)) :
    (insort_event_right e q).Perm (e :: q) := by
  rw [insort_event_right]
  exact List.perm_middle.trans (by rw [List.take_append_drop])

/-- Inserting a list of events one by one into a sorted queue yields a
sorted permutation. -/
lemma foldl_insort (L : List (Time × CB)) :
    ∀ q, SortedQ q →
      SortedQ (L.foldl (fun acc e => insort_event_right e acc) q) ∧
      (L.foldl (fun acc e => insort_event_right e acc) q).Perm (q ++ L) := by
  induction L with
  | nil =>
      intro q hq
      exact ⟨hq, by simp⟩
  | cons e L1 ih =>
      intro q hq
      obtain ⟨hs1, hp1⟩ := ih (insort_event_right e q) (insort_sorted e q hq)
      refine ⟨hs1, ?_⟩
      have h1 : (insort_event_right e q ++ L1).Perm ((e :: q) ++ L1) :=
        (insort_perm e q).append_right L1
      have h3 : (e :: (q ++ L1)).Perm (q ++ e :: L1) := List.perm_middle.symm
      exact hp1.trans (h1.trans h3)

/-- A sorted permutation of three events with strictly increasing
deadlines is exactly the sorted triple. -/
lemma sorted_perm_triple (x y z : Time × CB) (hxy : x.1 < y.1) (hyz : y.1 < z.1)
    (l : List (Time × CB)) (hp : l.Perm [x, y, z]) (hs : SortedQ l) :
    l = [x, y, z] := by
  letI : IsAntisymm (Time × CB) (fun a b => a.1 < b.1) :=
    ⟨fun a b h1 h2 => absurd h2 (lt_asymm h1)⟩
  have hkeys : (l.map Prod.fst).Perm [x.1, y.1, z.1] := by
    simpa using hp.map Prod.fst
  have hnd : (l.map Prod.fst).Nodup := by
    rw [hkeys.nodup_iff]
    simp [List.nodup_cons, ne_of_lt hxy, ne_of_lt hyz,
      ne_of_lt (lt_trans hxy hyz)]
  have hpne : l.Pairwise (fun a b => a.1 ≠ b.1) := List.pairwise_map.mp hnd
  have hslt : l.Pairwise (fun a b : Time × CB => a.1 < b.1) :=
    (List.Pairwise.and hs hpne).imp (fun h => lt_of_le_of_ne h.1 h.2)
  have hsrt : List.Pairwise (fun a b : Time × CB => a.1 < b.1) [x, y, z] := by
    refine List.pairwise_cons.mpr ⟨?_, List.pairwise_cons.mpr ⟨?_,
      List.pairwise_cons.mpr ⟨fun b hb => absurd hb (List.not_mem_nil b),
        List.Pairwise.nil⟩⟩⟩
    · intro b hb
      rcases List.mem_cons.mp hb with rfl | hb
      · exact hxy
      · rw [List.mem_singleton] at hb
        subst hb
        exact lt_trans hxy hyz
    · intro b hb
      rw [List.mem_singleton] at hb
      subst hb
      exact hyz
  exact List.eq_of_perm_of_sorted hp hslt hsrt

/-- Draining a loop whose only content is a sorted timer queue of plain
callbacks runs them front to back, sleeping past not-yet-due deadlines. -/
lemma drain_timers (o : Oracle) :
    ∀ (Q : List (Time × CB)) (s : Loop) (f : Nat),
      s.current = [] → s.idlers = [] → s.rpcs = [] → s.queue = Q →
      (∀ e ∈ Q, ∃ i, e.2 = CB.plain i) →
      SortedQ Q → 2 * Q.length + 1 ≤ f →
      ∃ sf, runFuel o f s = ⟨.ok true, sf⟩
        ∧ sf.trace = s.trace ++ Q.map (fun e => cbTag e.2) := by
  intro Q
  induction Q with
  | nil =>
      intro s f hc hi hr hq hplain hsort hf
      obtain ⟨now1, cur, idl, ina, qu, rp, stts, df, tr⟩ := s
      dsimp only at hc hi hr hq ⊢
      subst hc; subst hi; subst hr; subst hq
      rcases f with _ | f1
      · omega
      · have h0 : run0 o ⟨now1, [], [], ina, [], [], stts, df, tr⟩
            = ⟨.ok none, ⟨now1, [], [], ina, [], [], stts, df, tr⟩⟩ := by
          simp only [run0]
          rw [run_idle_not_runnable _ (Or.inl rfl)]
          rfl
        have h1 : run1 o ⟨now1, [], [], ina, [], [], stts, df, tr⟩
            = ⟨.ok false, ⟨now1, [], [], ina, [], [], stts, df, tr⟩⟩ := by
          simp only [run1, h0]
        refine ⟨⟨now1, [], [], ina, [], [], stts, df, tr⟩, ?_, by simp⟩
        simp only [runFuel, h1]
  | cons tc Q1 ih =>
      intro s f hc hi hr hq hplain hsort hf
      obtain ⟨t, c⟩ := tc
      obtain ⟨ci, hci⟩ := hplain (t, c) (List.mem_cons_self _ _)
      dsimp only at hci
      subst hci
      obtain ⟨now1, cur, idl, ina, qu, rp, stts, df, tr⟩ := s
      dsimp only at hc hi hr hq ⊢
      subst hc; subst hi; subst hr; subst hq
      simp only [List.length_cons] at hf
      by_cases hdue : t - now1 ≤ 0
      · rcases f with _ | f1
        · omega
        · have h0 : run0 o ⟨now1, [], [], ina, (t, .plain ci) :: Q1, [], stts, df, tr⟩
              = ⟨.ok (some 0),
                  ⟨now1, [], [], 0, Q1, [], stts, df, tr ++ [ci]⟩⟩ := by
            simp only [run0]
            rw [run_idle_not_runnable _ (Or.inl rfl)]
            try dsimp only
            rw [if_pos hdue]
            rfl
          have h1 : run1 o ⟨now1, [], [], ina, (t, .plain ci) :: Q1, [], stts, df, tr⟩
              = ⟨.ok true, ⟨now1, [], [], 0, Q1, [], stts, df, tr ++ [ci]⟩⟩ := by
            simp only [run1, h0]
            rw [if_neg (lt_irrefl 0)]
          obtain ⟨sf, hrun, htr⟩ := ih
            ⟨now1, [], [], 0, Q1, [], stts, df, tr ++ [ci]⟩ f1
            rfl rfl rfl rfl
            (fun e he => hplain e (List.mem_cons_of_mem _ he))
            (List.Pairwise.of_cons hsort) (by omega)
          refine ⟨sf, ?_, ?_⟩
          · simp only [runFuel, h1]
            exact hrun
          · rw [htr]
            simp [cbTag]
      · rcases f with _ | _ | f2
        · omega
        · omega
        · have h0 : run0 o ⟨now1, [], [], ina, (t, .plain ci) :: Q1, [], stts, df, tr⟩
              = ⟨.ok (some (t - now1)),
                  ⟨now1, [], [], ina, (t, .plain ci) :: Q1, [], stts, df, tr⟩⟩ := by
            simp only [run0]
            rw [run_idle_not_runnable _ (Or.inl rfl)]
            try dsimp only
            rw [if_neg hdue]
            rfl
          have h1 : run1 o ⟨now1, [], [], ina, (t, .plain ci) :: Q1, [], stts, df, tr⟩
              = ⟨.ok true, ⟨now1 + (t - now1), [], [], ina,
                  (t, .plain ci) :: Q1, [], stts, df, tr⟩⟩ := by
            simp only [run1, h0]
            rw [if_pos (not_le.mp hdue)]
          have hdue2 : t - (now1 + (t - now1)) ≤ 0 := le_of_eq (by ring)
          have h0b : run0 o ⟨now1 + (t - now1), [], [], ina,
                (t, .plain ci) :: Q1, [], stts, df, tr⟩
              = ⟨.ok (some 0), ⟨now1 + (t - now1), [], [], 0, Q1, [],
                  stts, df, tr ++ [ci]⟩⟩ := by
            simp only [run0]
            rw [run_idle_not_runnable _ (Or.inl rfl)]
            try dsimp only
            rw [if_pos hdue2]
            rfl
          have h1b : run1 o ⟨now1 + (t - now1), [], [], ina,
                (t, .plain ci) :: Q1, [], stts, df, tr⟩
              = ⟨.ok true, ⟨now1 + (t - now1), [], [], 0, Q1, [],
                  stts, df, tr ++ [ci]⟩⟩ := by
            simp only [run1, h0b]
            rw [if_neg (lt_irrefl 0)]
          obtain ⟨sf, hrun, htr⟩ := ih
            ⟨now1 + (t - now1), [], [], 0, Q1, [], stts, df, tr ++ [ci]⟩ f2
            rfl rfl rfl rfl
            (fun e he => hplain e (List.mem_cons_of_mem _ he))
            (List.Pairwise.of_cons hsort) (by omega)
          refine ⟨sf, ?_, ?_⟩
          · simp only [runFuel, h1, h1b]
            exact hrun
          · rw [htr]
            simp [cbTag]

/-- C4: the timer queue stays sorted with FIFO tie-breaking —
insort_event_right places the new event after every event whose deadline
is equal or smaller — and consequently three delayed items with deadlines
t1 < t2 < t3, queued in any order, are executed in nondecreasing deadline
order by the drain. -/
theorem C4_timer_queue_order (o : Oracle) :
    (∀ (e : Time × CB) (q : List (Time × CB)), SortedQ q →
      SortedQ (insort_event_right e q) ∧
      insort_event_right e q
        = q.takeWhile (fun x => decide (x.1 ≤ e.1))
            ++ e :: q.dropWhile (fun x => decide (x.1 ≤ e.1)))
  ∧ (∀ (t1 t2 t3 : Time) (i1 i2 i3 : Nat) (L : List (Time × CB))
      (now0 : Time) (f : Nat),
      t1 < t2 → t2 < t3 →
      L.Perm [(t1, .plain i1), (t2, .plain i2), (t3, .plain i3)] →
      7 ≤ f →
      ∃ sf, runFuel o f
          { emptyLoop now0 with
              queue := L.foldl (fun acc e => insort_event_right e acc) [] }
          = ⟨.ok true, sf⟩
        ∧ sf.trace = [i1, i2, i3]) := by
  constructor
  · intro e q hs
    exact ⟨insort_sorted e q hs, insort_sorted_eq e q hs⟩
  · intro t1 t2 t3 i1 i2 i3 L now0 f h12 h23 hp hf
    obtain ⟨hsort, hperm⟩ := foldl_insort L [] List.Pairwise.nil
    have hperm0 : (L.foldl (fun acc e => insort_event_right e acc) []).Perm L := by
      simpa using hperm
    have hperm2 : (L.foldl (fun acc e => insort_event_right e acc) []).Perm
        [(t1, .plain i1), (t2, .plain i2), (t3, .plain i3)] :=
      hperm0.trans hp
    have heq := sorted_perm_triple (t1, .plain i1) (t2, .plain i2)
      (t3, .plain i3) h12 h23 _ hperm2 hsort
    obtain ⟨sf, hrun, htr⟩ := drain_timers o
      [(t1, .plain i1), (t2, .plain i2), (t3, .plain i3)]
      { emptyLoop now0 with
          queue := L.foldl (fun acc e => insort_event_right e acc) [] } f
      rfl rfl rfl heq
      (by
        intro e he
        simp only [List.mem_cons, List.not_mem_nil, or_false] at he
        rcases he with rfl | rfl | rfl
        · exact ⟨i1, rfl⟩
        · exact ⟨i2, rfl⟩
        · exact ⟨i3, rfl⟩)
      (by
        refine List.pairwise_cons.mpr ⟨?_, List.pairwise_cons.mpr ⟨?_,
          List.pairwise_cons.mpr ⟨fun b hb => absurd hb (List.not_mem_nil b),
            List.Pairwise.nil⟩⟩⟩
        · intro b hb
          rcases List.mem_cons.mp hb with rfl | hb
          · exact le_of_lt h12
          · rw [List.mem_singleton] at hb
            subst hb
            exact le_of_lt (lt_trans h12 h23)
        · intro b hb
          rw [List.mem_singleton] at hb
          subst hb
          exact le_of_lt h23)
      (by simpa using hf)
    exact ⟨sf, hrun, by simpa [cbTag] using htr⟩

/-- C4 witness: a tie inserted to the right of its equal, and three timers
queued out of order drained in deadline order. -/
theorem C4_timer_queue_order_witness :
    (SortedQ (insort_event_right (2, .plain 9)
        [(1, .plain 0), (2, .plain 1), (3, .plain 2)])
      ∧ insort_event_right (2, .plain 9)
          [(1, .plain 0), (2, .plain 1), (3, .plain 2)]
        = [(1, .plain 0), (2, .plain 1), (3, .plain 2)].takeWhile
            (fun x => decide (x.1 ≤ (2 : Time)))
          ++ (2, .plain 9) :: [(1, .plain 0), (2, .plain 1), (3, .plain 2)].dropWhile
            (fun x => decide (x.1 ≤ (2 : Time))))
  ∧ (∃ sf, runFuel headOracle 7
        { emptyLoop 0 with
            queue := [((3 : Time), CB.plain 13), (1, .plain 11),
              (2, .plain 12)].foldl (fun acc e => insort_event_right e acc) [] }
        = ⟨.ok true, sf⟩
      ∧ sf.trace = [11, 12, 13]) :=
  ⟨(C4_timer_queue_order headOracle).1 (2, .plain 9)
      [(1, .plain 0), (2, .plain 1), (3, .plain 2)] (by unfold SortedQ; decide),
   (C4_timer_queue_order headOracle).2 1 2 3 11 12 13
      [(3, .plain 13), (1, .plain 11), (2, .plain 12)] 0 7
      (by decide) (by decide) (by decide) (by decide)⟩

end NdbEventLoop
